import Mathlib

/-!
# Verification of the Dolly Guitar Tuner signal core (`wwwroot/app.js`)

This development gives a shallow embedding of the signal-processing core of
the guitar tuner application and proves properties of it.

* the YIN pitch estimator (`yinDetect`, app.js lines 718-777) is embedded
  generically over a linear ordered field `K`; the JavaScript program runs it
  on IEEE doubles, the embedding models the same arithmetic exactly;
* the spectral-subtraction noise canceller (`NoiseCanceller`, lines 479-653)
  is embedded over `ℝ`, arrays being modelled as functions `ℕ → ℝ` updated
  in place by the loops exactly as the source mutates its `Float32Array`s;
* the tuning model and the per-frame session step (`detectPitch`,
  `updateUI`, `stopTuner`, `setA4`, `findClosestString`) are embedded over
  `ℝ` on a session-state record mirroring the script's module globals.

Numeric literals (`0.15`, `0.008`, `0.85`, ...) are the constants of the
source.
-/

namespace GuitarTuner

/-! ## YIN pitch detection (app.js `yinDetect`, lines 718-777)

The estimator is written generically over a linear ordered field so that the
same definitions can be evaluated on `ℚ` and instantiated at `ℝ` inside the
session model. -/

variable {K : Type*} [LinearOrderedField K]

/-- One result record `{ frequency, confidence }` of `yinDetect`. -/
structure DetectionResult (K : Type*) where
  frequency : K
  confidence : K
  deriving Repr, DecidableEq

/-- The inner loop of step 1: `for (i...) { delta = buffer[i] - buffer[i+tau]; diff += delta*delta }`. -/
def yinDiff (buffer : List K) (halfLen tau : ℕ) : K :=
  (List.range halfLen).foldl
    (fun diff i =>
      diff + (buffer.getD i 0 - buffer.getD (i + tau) 0) * (buffer.getD i 0 - buffer.getD (i + tau) 0))
    0

/-- The main `tau` loop of steps 1-3: starting from `yinBuffer[0] = 1` and
`runningSum = 0`, for each `tau` it appends the raw squared difference and
immediately rescales it by `tau / runningSum` (cumulative mean
normalisation).  The accumulator carries `(runningSum, yinBuffer)`. -/
def yinLoop (buffer : List K) (halfLen : ℕ) : K × List K :=
  (List.range' 1 (halfLen - 1)).foldl
    (fun acc tau =>
      let diff := yinDiff buffer halfLen tau
      let rs := acc.1 + diff
      (rs, acc.2 ++ [diff * ((tau : K) / rs)]))
    (0, [1])

/-- The cumulative-mean-normalised difference buffer (`yinBuffer` after
steps 1-3 of `yinDetect`). -/
def yinNormBuffer (buffer : List K) : List K :=
  (yinLoop buffer (buffer.length / 2)).2

/-- Step 4's inner `while (tau + 1 < halfLen && yinBuffer[tau+1] < yinBuffer[tau]) tau++`:
walk down to the local minimum of the dip.  The `while` loop is modelled
with explicit fuel; `halfLen` fuel is always enough because `tau` increases
and stays below `halfLen`. -/
def yinWalk (buf : List K) (halfLen : ℕ) : ℕ → ℕ → ℕ
  | 0, tau => tau
  | fuel + 1, tau =>
    if tau + 1 < halfLen ∧ buf.getD (tau + 1) 0 < buf.getD tau 0 then
      yinWalk buf halfLen fuel (tau + 1)
    else tau

/-- Step 4's outer scan `for (tau = 2; tau < halfLen; tau++)`: find the first
`tau` whose normalised value drops below the absolute threshold `0.15`, then
walk to the local minimum; `none` models `tauEstimate === -1`. -/
def yinSearch (buf : List K) (halfLen : ℕ) : ℕ → ℕ → Option ℕ
  | 0, _ => none
  | fuel + 1, tau =>
    if tau < halfLen then
      if buf.getD tau 0 < 0.15 then some (yinWalk buf halfLen halfLen tau)
      else yinSearch buf halfLen fuel (tau + 1)
    else none

/-- Step 5: parabolic interpolation of the integer lag `tauEstimate`,
with `x0`/`x2` clamped at the buffer edges exactly as in the source. -/
def yinBetterTau (buf : List K) (halfLen tauEstimate : ℕ) : K :=
  let x0 := if tauEstimate < 1 then tauEstimate else tauEstimate - 1
  let x2 := if tauEstimate + 1 < halfLen then tauEstimate + 1 else tauEstimate
  if x0 = tauEstimate then
    if buf.getD tauEstimate 0 ≤ buf.getD x2 0 then (tauEstimate : K) else (x2 : K)
  else if x2 = tauEstimate then
    if buf.getD tauEstimate 0 ≤ buf.getD x0 0 then (tauEstimate : K) else (x0 : K)
  else
    let s0 := buf.getD x0 0
    let s1 := buf.getD tauEstimate 0
    let s2 := buf.getD x2 0
    (tauEstimate : K) + (s2 - s0) / (2 * (2 * s1 - s2 - s0))

/-- `yinDetect(buffer, sampleRate)`, returning `{ frequency, confidence }`;
`frequency = -1, confidence = 0` is the no-pitch result. -/
def yinDetect (buffer : List K) (sampleRate : K) : DetectionResult K :=
  let halfLen := buffer.length / 2
  let buf := yinNormBuffer buffer
  match yinSearch buf halfLen halfLen 2 with
  | none => ⟨-1, 0⟩
  | some tauEstimate =>
    let confidence := 1 - buf.getD tauEstimate 0
    let betterTau := yinBetterTau buf halfLen tauEstimate
    ⟨sampleRate / betterTau, max 0 (min 1 confidence)⟩

/-- Specification-side squared-difference function
`d(tau) = Σ_{i=0}^{halfLen-1} (frame[i] - frame[i+tau])²`. -/
def sqDiff (buffer : List K) (halfLen tau : ℕ) : K :=
  ∑ i ∈ Finset.range halfLen, (buffer.getD i 0 - buffer.getD (i + tau) 0) ^ 2

/-- Specification-side running sum `Σ_{j=1}^{tau} d(j)`. -/
def sqDiffSum (buffer : List K) (halfLen tau : ℕ) : K :=
  ∑ j ∈ Finset.Icc 1 tau, sqDiff buffer halfLen j

/-! ## Tuning model (app.js `TUNINGS`, `getActiveStrings`,
`getFrequencyBounds`, `findClosestString`, lines 7-14, 90-118, 983-996) -/

/-- One row of the `TUNINGS` database: `{ note, octave, semi }`. -/
structure StringSpec where
  note : String
  octave : ℤ
  semi : ℤ
  deriving Repr, DecidableEq

def standardStrings : List StringSpec :=
  [⟨"E", 2, -29⟩, ⟨"A", 2, -24⟩, ⟨"D", 3, -19⟩, ⟨"G", 3, -14⟩, ⟨"B", 3, -10⟩, ⟨"E", 4, -5⟩]

def dropDStrings : List StringSpec :=
  [⟨"D", 2, -31⟩, ⟨"A", 2, -24⟩, ⟨"D", 3, -19⟩, ⟨"G", 3, -14⟩, ⟨"B", 3, -10⟩, ⟨"E", 4, -5⟩]

def openGStrings : List StringSpec :=
  [⟨"D", 2, -31⟩, ⟨"G", 2, -26⟩, ⟨"D", 3, -19⟩, ⟨"G", 3, -14⟩, ⟨"B", 3, -10⟩, ⟨"D", 4, -7⟩]

def dadgadStrings : List StringSpec :=
  [⟨"D", 2, -31⟩, ⟨"A", 2, -24⟩, ⟨"D", 3, -19⟩, ⟨"G", 3, -14⟩, ⟨"A", 3, -12⟩, ⟨"D", 4, -7⟩]

def halfStepDownStrings : List StringSpec :=
  [⟨"D#", 2, -30⟩, ⟨"G#", 2, -25⟩, ⟨"C#", 3, -20⟩, ⟨"F#", 3, -15⟩, ⟨"A#", 3, -11⟩, ⟨"D#", 4, -6⟩]

def openDStrings : List StringSpec :=
  [⟨"D", 2, -31⟩, ⟨"A", 2, -24⟩, ⟨"D", 3, -19⟩, ⟨"F#", 3, -15⟩, ⟨"A", 3, -12⟩, ⟨"D", 4, -7⟩]

/-- The `TUNINGS` lookup table keyed by profile name. -/
def TUNINGS (key : String) : Option (List StringSpec) :=
  if key = "standard" then some standardStrings
  else if key = "dropD" then some dropDStrings
  else if key = "openG" then some openGStrings
  else if key = "dadgad" then some dadgadStrings
  else if key = "halfStepDown" then some halfStepDownStrings
  else if key = "openD" then some openDStrings
  else none

/-- One entry of the derived active string set:
`{ name, octave, freq, stringNum }`. -/
structure ActiveString where
  name : String
  octave : ℤ
  freq : ℝ
  stringNum : ℤ

def defaultActiveString : ActiveString := ⟨"", 0, 0, 0⟩

/-- `getActiveStrings`: derive per-string frequencies
`a4Reference * 2^(semi/12)` and display numbers `6 - i`. -/
noncomputable def getActiveStrings (a4Reference : ℝ) (strings : List StringSpec) :
    List ActiveString :=
  strings.mapIdx fun i s =>
    ⟨s.note, s.octave, a4Reference * (2 : ℝ) ^ ((s.semi : ℝ) / 12), 6 - (i : ℤ)⟩

structure FrequencyBounds where
  low : ℝ
  high : ℝ

/-- `Math.min(...xs)` over a nonempty spread (the `[]` case is unreachable:
profiles always hold six strings; JavaScript would give `Infinity`). -/
noncomputable def jsMin : List ℝ → ℝ
  | [] => 0
  | x :: xs => xs.foldl min x

noncomputable def jsMax : List ℝ → ℝ
  | [] => 0
  | x :: xs => xs.foldl max x

/-- `getFrequencyBounds`: `low = min(freqs)*0.5`, `high = max(freqs)*2.0`. -/
noncomputable def getFrequencyBounds (strings : List ActiveString) : FrequencyBounds :=
  ⟨jsMin (strings.map (·.freq)) * 0.5, jsMax (strings.map (·.freq)) * 2.0⟩

/-- The absolute cents distance `|1200 * log2(freq / s.freq)|` used by
`findClosestString`. -/
noncomputable def centsDist (freq : ℝ) (s : ActiveString) : ℝ :=
  |1200 * Real.logb 2 (freq / s.freq)|

/-- One iteration of the `findClosestString` scan: update the running
`(closest, minCentsDiff)` pair when the current string is strictly closer;
the accumulator's `none` models the initial `minCentsDiff = Infinity`
(every finite distance beats it). -/
noncomputable def closestStep (freq : ℝ) (acc : ActiveString × Option ℝ) (s : ActiveString) :
    ActiveString × Option ℝ :=
  let centsDiff := centsDist freq s
  match acc.2 with
  | none => (s, some centsDiff)
  | some m => if centsDiff < m then (s, some centsDiff) else acc

/-- `findClosestString(freq)`: scan all active strings keeping the one with
the smallest absolute cents distance. -/
noncomputable def findClosestString (freq : ℝ) (strings : List ActiveString) : ActiveString :=
  (strings.foldl (closestStep freq) (strings.headD defaultActiveString, none)).1

/-! ## Noise canceller (app.js `class NoiseCanceller`, lines 479-653)

The `Float32Array`s of the source are modelled as functions `ℕ → ℝ`; each
in-place element write becomes an `updArr`.  (The source works on 32-bit
floats; the embedding models the arithmetic exactly.) -/

/-- In-place array write `a[i] = v`. -/
def updArr (a : ℕ → ℝ) (i : ℕ) (v : ℝ) : ℕ → ℝ := fun j => if j = i then v else a j

/-- The constructor's bit-reversal loop:
`for (b...) { rev = (rev << 1) | (val & 1); val >>= 1 }`. -/
def bitRevLoop (bits val : ℕ) : ℕ :=
  ((List.range bits).foldl (fun rv _ => (2 * rv.1 + rv.2 % 2, rv.2 / 2)) (0, val)).1

/-- Precomputed Hann window coefficient `0.5 * (1 - cos(2πi/(fftSize-1)))`. -/
noncomputable def hannWindow (fftSize i : ℕ) : ℝ :=
  0.5 * (1 - Real.cos (2 * Real.pi * i / ((fftSize : ℝ) - 1)))

/-- Precomputed twiddle factor, real part: `cos(-2πi/fftSize)`. -/
noncomputable def twiddleRe (fftSize i : ℕ) : ℝ := Real.cos (-2 * Real.pi * i / fftSize)

/-- Precomputed twiddle factor, imaginary part: `sin(-2πi/fftSize)`. -/
noncomputable def twiddleIm (fftSize i : ℕ) : ℝ := Real.sin (-2 * Real.pi * i / fftSize)

/-- One iteration of the bit-reversal permutation pass (swap
`re[i] ↔ re[j]`, `im[i] ↔ im[j]` for `j = bitRev[i]` whenever `i < j`). -/
noncomputable def bitrevSwap (fftSize : ℕ) (st : (ℕ → ℝ) × (ℕ → ℝ)) (i : ℕ) :
    (ℕ → ℝ) × (ℕ → ℝ) :=
  let j := bitRevLoop (Nat.log2 fftSize) i
  if i < j then
    (updArr (updArr st.1 i (st.1 j)) j (st.1 i),
     updArr (updArr st.2 i (st.2 j)) j (st.2 i))
  else st

/-- The bit-reversal permutation pass of `fft`. -/
noncomputable def bitrevPermute (fftSize : ℕ) (st : (ℕ → ℝ) × (ℕ → ℝ)) :
    (ℕ → ℝ) × (ℕ → ℝ) :=
  (List.range fftSize).foldl (bitrevSwap fftSize) st

/-- One butterfly of the Cooley-Tukey stage (`twIdx = j * step`,
`step = fftSize / size`); `i` is the block base, `j` the offset. -/
noncomputable def butterfly (fftSize size : ℕ) (st : (ℕ → ℝ) × (ℕ → ℝ)) (i j : ℕ) :
    (ℕ → ℝ) × (ℕ → ℝ) :=
  let halfSize := size / 2
  let twIdx := j * (fftSize / size)
  let tRe := twiddleRe fftSize twIdx * st.1 (i + j + halfSize) -
    twiddleIm fftSize twIdx * st.2 (i + j + halfSize)
  let tIm := twiddleRe fftSize twIdx * st.2 (i + j + halfSize) +
    twiddleIm fftSize twIdx * st.1 (i + j + halfSize)
  let re1 := updArr st.1 (i + j + halfSize) (st.1 (i + j) - tRe)
  let im1 := updArr st.2 (i + j + halfSize) (st.2 (i + j) - tIm)
  (updArr re1 (i + j) (re1 (i + j) + tRe), updArr im1 (i + j) (im1 (i + j) + tIm))

/-- One butterfly stage: `for (i = 0; i < n; i += size) for (j = 0; j < size/2; j++)`. -/
noncomputable def fftStage (fftSize : ℕ) (st : (ℕ → ℝ) × (ℕ → ℝ)) (size : ℕ) :
    (ℕ → ℝ) × (ℕ → ℝ) :=
  (List.range (fftSize / size)).foldl
    (fun st bi =>
      (List.range (size / 2)).foldl (fun st j => butterfly fftSize size st (bi * size) j) st)
    st

/-- In-place radix-2 Cooley-Tukey FFT (`NoiseCanceller.fft`): bit-reversal
permutation followed by the stages `size = 2, 4, ..., fftSize`. -/
noncomputable def fft (fftSize : ℕ) (st : (ℕ → ℝ) × (ℕ → ℝ)) : (ℕ → ℝ) × (ℕ → ℝ) :=
  (List.range (Nat.log2 fftSize)).foldl (fun st s => fftStage fftSize st (2 ^ (s + 1)))
    (bitrevPermute fftSize st)

/-- Inverse FFT via the conjugate trick (`NoiseCanceller.ifft`): negate the
imaginary parts, run the forward transform, conjugate and scale by `1/n`. -/
noncomputable def ifft (fftSize : ℕ) (st : (ℕ → ℝ) × (ℕ → ℝ)) : (ℕ → ℝ) × (ℕ → ℝ) :=
  let st1 : (ℕ → ℝ) × (ℕ → ℝ) := (st.1, fun i => if i < fftSize then -st.2 i else st.2 i)
  let r := fft fftSize st1
  (fun i => if i < fftSize then r.1 i / fftSize else r.1 i,
   fun i => if i < fftSize then -r.2 i / fftSize else r.2 i)

/-- Complex view of a pair of real arrays, for reasoning about the
transform: the loops of the source manipulate the real and imaginary parts
of one logical complex array. -/
noncomputable def cview (st : (ℕ → ℝ) × (ℕ → ℝ)) (k : ℕ) : ℂ := ⟨st.1 k, st.2 k⟩

/-- The principal root `e^(-2πi/n)` from which the twiddle factors are
sampled: `twiddle[i] = omegaN n ^ i`. -/
noncomputable def omegaN (n : ℕ) : ℂ :=
  Complex.exp (-(2 * Real.pi / n) * Complex.I)

/-- The discrete Fourier transform of an `n`-point complex signal. -/
noncomputable def dft (n : ℕ) (x : ℕ → ℂ) (k : ℕ) : ℂ :=
  ∑ j ∈ Finset.range n, x j * omegaN n ^ (j * k)

/-- Reversal of the `b` low bits of a number (recursion peeling the top
target bit), the mathematical counterpart of `bitRevLoop`. -/
def mrev : ℕ → ℕ → ℕ
  | 0, _ => 0
  | b + 1, v => 2 * mrev b v + v / 2 ^ b % 2

/-- The mutable state of a `NoiseCanceller` instance. -/
structure NoiseCancellerState where
  fftSize : ℕ
  noiseProfile : Option (ℕ → ℝ)
  learnFrames : List (ℕ → ℝ)
  learnTarget : ℕ
  learned : Bool
  prevMag : Option (ℕ → ℝ)

/-- `new NoiseCanceller(fftSize)`. -/
def mkNoiseCanceller (fftSize : ℕ) : NoiseCancellerState :=
  ⟨fftSize, none, [], 20, false, none⟩

/-- Fill the work arrays: `re[i] = buffer[i] * window[i]`, `im = 0`. -/
noncomputable def windowed (fftSize : ℕ) (buffer : List ℝ) : ℕ → ℝ :=
  fun i => if i < fftSize then buffer.getD i 0 * hannWindow fftSize i else 0

/-- Magnitude spectrum of a windowed frame: `sqrt(re[i]² + im[i]²)`. -/
noncomputable def magSpectrum (fftSize : ℕ) (buffer : List ℝ) : ℕ → ℝ :=
  let st := fft fftSize (windowed fftSize buffer, fun _ => 0)
  fun i => Real.sqrt (st.1 i * st.1 i + st.2 i * st.2 i)

/-- Averaging of the accumulated magnitude spectra into the noise profile
(`noiseProfile[i] += learnFrames[f][i]` for `i ≤ halfSize`, then
`noiseProfile[i] /= learnFrames.length`). -/
noncomputable def averageProfile (halfSize : ℕ) (frames : List (ℕ → ℝ)) : ℕ → ℝ :=
  let acc := frames.foldl
    (fun acc m => fun i => if i ≤ halfSize then acc i + m i else acc i) (fun _ => 0)
  fun i => if i ≤ halfSize then acc i / (frames.length : ℝ) else acc i

/-- `NoiseCanceller.learnFrame(buffer)`: returns the boolean result together
with the successor state. -/
noncomputable def learnFrame (c : NoiseCancellerState) (buffer : List ℝ) :
    Bool × NoiseCancellerState :=
  if c.learned then (true, c)
  else
    let mag := magSpectrum c.fftSize buffer
    let frames := c.learnFrames ++ [mag]
    if c.learnTarget ≤ frames.length then
      (true,
        { c with
          noiseProfile := some (averageProfile (c.fftSize / 2) frames)
          learnFrames := []
          learned := true })
    else (false, { c with learnFrames := frames })

/-- Iterated `learnFrame` over a list of frames, collecting the returned
booleans in order. -/
noncomputable def learnFrameSeq (c : NoiseCancellerState) :
    List (List ℝ) → List Bool × NoiseCancellerState
  | [] => ([], c)
  | f :: rest =>
    let r := learnFrame c f
    let rr := learnFrameSeq r.2 rest
    (r.1 :: rr.1, rr.2)

/-- JavaScript's `Math.atan2(y, x)` (the argument of `x + y·i`). -/
noncomputable def atan2 (y x : ℝ) : ℝ := Complex.arg ⟨x, y⟩

/-- One iteration of the per-bin loop of `NoiseCanceller.process`:
spectral over-subtraction, temporal smoothing, reconstruction from the
noisy phase, and conjugate mirroring into `fftSize - i` (except for the DC
and Nyquist bins).  The accumulator carries `((re, im), prevMag)`. -/
noncomputable def processBinStep (fftSize : ℕ) (noise : ℕ → ℝ)
    (st : ((ℕ → ℝ) × (ℕ → ℝ)) × (ℕ → ℝ)) (i : ℕ) : ((ℕ → ℝ) × (ℕ → ℝ)) × (ℕ → ℝ) :=
  let re := st.1.1
  let im := st.1.2
  let prev := st.2
  let mag := Real.sqrt (re i * re i + im i * im i)
  let phase := atan2 (im i) (re i)
  let cleanMag0 := max (mag - 2.0 * noise i) (0.002 * mag)
  let cleanMag := 0.8 * prev i + 0.2 * cleanMag0
  let prevNext := updArr prev i cleanMag
  let re2 := updArr re i (cleanMag * Real.cos phase)
  let im2 := updArr im i (cleanMag * Real.sin phase)
  if 0 < i ∧ i < fftSize / 2 then
    ((updArr re2 (fftSize - i) (re2 i), updArr im2 (fftSize - i) (-im2 i)), prevNext)
  else ((re2, im2), prevNext)

/-- The per-bin loop of `NoiseCanceller.process` over `i = 0 .. halfSize`. -/
noncomputable def processBins (fftSize : ℕ) (noise prev0 : ℕ → ℝ)
    (st0 : (ℕ → ℝ) × (ℕ → ℝ)) : ((ℕ → ℝ) × (ℕ → ℝ)) × (ℕ → ℝ) :=
  (List.range (fftSize / 2 + 1)).foldl (processBinStep fftSize noise) (st0, prev0)

/-- Specification-side per-bin magnitude `sqrt(re[i]² + im[i]²)`. -/
noncomputable def binMag (re0 im0 : ℕ → ℝ) (i : ℕ) : ℝ :=
  Real.sqrt (re0 i * re0 i + im0 i * im0 i)

/-- Specification-side per-bin phase `atan2(im[i], re[i])`. -/
noncomputable def binPhase (re0 im0 : ℕ → ℝ) (i : ℕ) : ℝ := atan2 (im0 i) (re0 i)

/-- Specification-side over-subtracted magnitude
`max(mag - 2.0*noise[i], 0.002*mag)`. -/
noncomputable def binClean (noise re0 im0 : ℕ → ℝ) (i : ℕ) : ℝ :=
  max (binMag re0 im0 i - 2.0 * noise i) (0.002 * binMag re0 im0 i)

/-- Specification-side temporally smoothed magnitude
`0.8*prevMag[i] + 0.2*cleanMag`. -/
noncomputable def binSmooth (noise prev0 re0 im0 : ℕ → ℝ) (i : ℕ) : ℝ :=
  0.8 * prev0 i + 0.2 * binClean noise re0 im0 i

/-- The real part of the spectrum rebuilt by the per-bin loop: smoothed
magnitude with the original phase on bins `0..n/2`, conjugate mirror above. -/
noncomputable def processSpecRe (n : ℕ) (noise prev0 re0 im0 : ℕ → ℝ) : ℕ → ℝ :=
  fun k =>
    if k ≤ n / 2 then binSmooth noise prev0 re0 im0 k * Real.cos (binPhase re0 im0 k)
    else if k < n then
      binSmooth noise prev0 re0 im0 (n - k) * Real.cos (binPhase re0 im0 (n - k))
    else re0 k

/-- The imaginary part of the rebuilt spectrum (negated above `n/2`). -/
noncomputable def processSpecIm (n : ℕ) (noise prev0 re0 im0 : ℕ → ℝ) : ℕ → ℝ :=
  fun k =>
    if k ≤ n / 2 then binSmooth noise prev0 re0 im0 k * Real.sin (binPhase re0 im0 k)
    else if k < n then
      -(binSmooth noise prev0 re0 im0 (n - k) * Real.sin (binPhase re0 im0 (n - k)))
    else im0 k

/-- The `prevMag` array after the per-bin loop: the smoothed magnitudes on
`0..n/2`, the previous contents elsewhere. -/
noncomputable def processSpecPrev (n : ℕ) (noise prev0 re0 im0 : ℕ → ℝ) : ℕ → ℝ :=
  fun k => if k ≤ n / 2 then binSmooth noise prev0 re0 im0 k else prev0 k

/-- `NoiseCanceller.process(buffer)`: passthrough until learned; once
learned, window, transform, subtract/smooth/rebuild per bin, inverse
transform, and return the real part (paired with the successor state,
whose `prevMag` the loop updated). -/
noncomputable def process (c : NoiseCancellerState) (buffer : List ℝ) :
    List ℝ × NoiseCancellerState :=
  if c.learned = false then (buffer, c)
  else
    let n := c.fftSize
    let st1 := fft n (windowed n buffer, fun _ => 0)
    let prev0 := c.prevMag.getD fun _ => 0
    let noise := c.noiseProfile.getD fun _ => 0
    let r := processBins n noise prev0 st1
    let out := ifft n r.1
    ((List.range n).map out.1, { c with prevMag := some r.2 })

/-! ## Session state machine (app.js globals and `detectPitch`,
`updateConfidence`, `updateUI`, `stopTuner`, lines 22-62, 303-364, 658-877)

The module-level globals and the DOM widgets written by the script are
collected into one record; display elements are modelled by the values
written to them. -/

structure TunerState where
  isListening : Bool
  isLearningNoise : Bool
  canceller : Option NoiseCancellerState
  lockedString : Option ℕ
  activeTuningKey : String
  a4Reference : ℝ
  smoothedCents : ℝ
  wasInTune : Bool
  displayedNote : String
  displayedOctave : Option ℤ
  displayedFreq : Option ℝ
  needlePercent : ℝ
  statusClass : String
  confidencePct : ℤ
  confidenceColor : String
  pitchHistory : List ℝ
  historyIndex : ℕ
  historyCount : ℕ

def HISTORY_SIZE : ℕ := 120

/-- JavaScript's `Math.round` (half-up): `⌊x + 1/2⌋`. -/
noncomputable def jsRound (x : ℝ) : ℤ := ⌊x + 1 / 2⌋

/-- `updateConfidence(confidence)`: sets the confidence bar percentage and
its colour band. -/
noncomputable def updateConfidence (s : TunerState) (confidence : ℝ) : TunerState :=
  let pct := jsRound (confidence * 100)
  { s with
    confidencePct := pct
    confidenceColor := if pct < 70 then "accent" else if pct < 85 then "yellow" else "green" }

/-- `getActiveStrings()` as invoked by the session (tuning key + A4). -/
noncomputable def activeStrings (s : TunerState) : List ActiveString :=
  getActiveStrings s.a4Reference ((TUNINGS s.activeTuningKey).getD standardStrings)

/-- The smoothing update `smoothedCents * 0.6 + cents * 0.4` of `updateUI`. -/
noncomputable def smoothUpdate (smoothedCents cents : ℝ) : ℝ :=
  smoothedCents * 0.6 + cents * 0.4

/-- Target-string resolution of `updateUI`: the locked string when a lock
is set, otherwise the nearest active string. -/
noncomputable def resolveTarget (s : TunerState) (frequency : ℝ) : ActiveString :=
  match s.lockedString with
  | some i => (activeStrings s).getD i defaultActiveString
  | none => findClosestString frequency (activeStrings s)

/-- `updateUI(frequency)`: resolve the target string (locked index or
nearest), compute the cents offset, smooth it, and refresh the tuning
feedback (note, octave, frequency, needle, status class, in-tune flag,
pitch history ring buffer). -/
noncomputable def updateUI (s : TunerState) (frequency : ℝ) : TunerState :=
  let targetString := resolveTarget s frequency
  let cents := 1200 * Real.logb 2 (frequency / targetString.freq)
  let sc := smoothUpdate s.smoothedCents cents
  let displayCents := max (-50) (min 50 sc)
  let isInTune := |sc| ≤ 5
  { s with
    smoothedCents := sc
    displayedNote := targetString.name
    displayedOctave := some targetString.octave
    displayedFreq := some frequency
    needlePercent := 50 + displayCents / 50 * 50
    statusClass :=
      if isInTune then "in-tune"
      else if |sc| ≤ 15 then "close"
      else if sc < 0 then "flat"
      else "sharp"
    wasInTune := isInTune
    pitchHistory := s.pitchHistory.set s.historyIndex sc
    historyIndex := (s.historyIndex + 1) % HISTORY_SIZE
    historyCount := if s.historyCount < HISTORY_SIZE then s.historyCount + 1 else s.historyCount }

/-- `stopTuner()`: discard the session-scoped state and reset the displays. -/
noncomputable def stopTuner (s : TunerState) : TunerState :=
  { s with
    isListening := false
    canceller := none
    isLearningNoise := false
    displayedNote := "--"
    displayedOctave := none
    displayedFreq := none
    statusClass := ""
    needlePercent := 50
    smoothedCents := 0
    wasInTune := false
    confidencePct := 0
    confidenceColor := "dim"
    pitchHistory := List.replicate HISTORY_SIZE 0
    historyIndex := 0
    historyCount := 0 }

/-- The RMS volume check of `detectPitch`: `sqrt(sumSq / length)`. -/
noncomputable def frameRms (frame : List ℝ) : ℝ :=
  Real.sqrt (frame.foldl (fun acc x => acc + x * x) 0 / frame.length)

/-- The learning-phase update: feed the frame to `learnFrame`; when it
reports completion, clear `isLearningNoise`. -/
noncomputable def learnStep (s : TunerState) (frame : List ℝ) : TunerState :=
  match s.canceller with
  | some c =>
    let r := learnFrame c frame
    { s with
      canceller := some r.2
      isLearningNoise := if r.1 then false else s.isLearningNoise }
  | none => s

/-- `noiseCanceller ? noiseCanceller.process(buffer) : buffer`, paired with
the canceller state after the call. -/
noncomputable def cleanResult (s : TunerState) (frame : List ℝ) :
    List ℝ × Option NoiseCancellerState :=
  match s.canceller with
  | some c =>
    let r := process c frame
    (r.1, some r.2)
  | none => (frame, none)

/-- One pass of the `detectPitch` loop on the current frame: silence check,
noise-learning phase, then denoise → YIN → confidence display → gate →
tuning feedback. -/
noncomputable def detectPitch (s : TunerState) (frame : List ℝ) (sampleRate : ℝ) :
    TunerState :=
  if s.isListening = false then s
  else if frameRms frame < 0.008 then
    if s.isLearningNoise ∧ s.canceller.isSome then learnStep s frame else s
  else if s.isLearningNoise ∧ s.canceller.isSome then learnStep s frame
  else
    let r := cleanResult s frame
    let result := yinDetect r.1 sampleRate
    let s2 := updateConfidence { s with canceller := r.2 } result.confidence
    let bounds := getFrequencyBounds (activeStrings s)
    if result.frequency ≠ -1 ∧ bounds.low < result.frequency ∧
        result.frequency < bounds.high then
      if 0.85 ≤ result.confidence then updateUI s2 result.frequency else s2
    else s2

/-! ## A4 calibration (app.js `setA4` line 144 and the restore in `init`
lines 1040-1044)

The calibration state couples the live `a4Reference` with the value kept in
`localStorage` under `'guitar-tuner-a4'`.  The storage cell is modelled as
the number whose decimal string the script stores; `parseInt` on such a
string truncates toward zero, and `parseInt(s) || 440` falls back to 440
when the parse yields 0 (or NaN, unreachable here). -/

structure CalibState where
  a4Reference : ℚ
  storedA4 : Option ℚ
  deriving Repr, DecidableEq

/-- Initial state: `a4Reference = 440`, nothing stored. -/
def initCalib : CalibState := ⟨440, none⟩

/-- `parseInt` on the decimal rendering of a rational; for the non-negative
values that ever reach storage this is the integer part before the decimal
point. -/
def jsParseIntQ (q : ℚ) : ℤ := q.num / (q.den : ℤ)

/-- `setA4(value)`: clamp into `[432, 446]`, update the display and persist. -/
def setA4 (_s : CalibState) (value : ℚ) : CalibState :=
  let a4 := max 432 (min 446 value)
  { a4Reference := a4, storedA4 := some a4 }

/-- The restore step of `init()`:
`if (savedA4) a4Reference = parseInt(savedA4) || 440`. -/
def restoreA4 (s : CalibState) : CalibState :=
  match s.storedA4 with
  | none => s
  | some v =>
    let p := jsParseIntQ v
    { s with a4Reference := if p = 0 then 440 else (p : ℚ) }

/-- The operations of the system that touch the calibration reference. -/
inductive CalibOp where
  | setCal (value : ℚ)
  | restore
  deriving Repr, DecidableEq

def applyCalibOp (s : CalibState) : CalibOp → CalibState
  | CalibOp.setCal v => setA4 s v
  | CalibOp.restore => restoreA4 s

/-- Run a sequence of calibration operations from the initial state. -/
def runCalib (ops : List CalibOp) : CalibState := ops.foldl applyCalibOp initCalib

/-- The calibration invariant: the live reference and any stored value lie
in `[432, 446]`. -/
def CalibInv (s : CalibState) : Prop :=
  (432 ≤ s.a4Reference ∧ s.a4Reference ≤ 446) ∧
  ∀ v, s.storedA4 = some v → 432 ≤ v ∧ v ≤ 446

/-! ### Basic lemmas about the YIN buffers -/

theorem foldl_add_eq (f : ℕ → K) (l : List ℕ) (a : K) :
    l.foldl (fun d i => d + f i) a = a + (l.map f).sum := by
  induction l generalizing a with
  | nil => simp
  | cons h t ih => simp [ih, add_assoc]

theorem yinDiff_eq_sqDiff (buffer : List K) (halfLen tau : ℕ) :
    yinDiff buffer halfLen tau = sqDiff buffer halfLen tau := by
  induction halfLen with
  | zero => simp [yinDiff, sqDiff]
  | succ n ih =>
    simp only [yinDiff, sqDiff, List.range_succ, List.foldl_append, List.foldl_cons,
      List.foldl_nil, Finset.sum_range_succ] at *
    rw [ih, sq]

theorem sqDiff_nonneg (buffer : List K) (halfLen tau : ℕ) :
    0 ≤ sqDiff buffer halfLen tau :=
  Finset.sum_nonneg fun _ _ => sq_nonneg _

theorem sqDiffSum_nonneg (buffer : List K) (halfLen tau : ℕ) :
    0 ≤ sqDiffSum buffer halfLen tau :=
  Finset.sum_nonneg fun _ _ => sqDiff_nonneg _ _ _

/-- Closed form of the normalisation loop: after processing `tau = 1..k` the
running sum is `Σ_{j=1}^{k} d(j)` and the buffer holds the sentinel `1`
followed by the normalised values. -/
theorem yinLoop_closed_form (buffer : List K) (halfLen k : ℕ) :
    (List.range' 1 k).foldl
      (fun acc tau =>
        let diff := yinDiff buffer halfLen tau
        let rs := acc.1 + diff
        (rs, acc.2 ++ [diff * ((tau : K) / rs)]))
      (0, [1]) =
    (sqDiffSum buffer halfLen k,
      [1] ++ (List.range' 1 k).map
        (fun tau => sqDiff buffer halfLen tau * ((tau : K) / sqDiffSum buffer halfLen tau))) := by
  induction k with
  | zero => simp [sqDiffSum]
  | succ n ih =>
    have hc : List.range' 1 (n + 1) = List.range' 1 n ++ [1 + n] := by
      simpa using @List.range'_concat 1 1 n
    have hsum : sqDiffSum buffer halfLen (n + 1) =
        sqDiffSum buffer halfLen n + sqDiff buffer halfLen (n + 1) := by
      simpa [sqDiffSum] using
        Finset.sum_Icc_succ_top (by omega : 1 ≤ n + 1) (sqDiff buffer halfLen)
    rw [hc, List.foldl_append, ih]
    simp only [List.foldl_cons, List.foldl_nil, List.map_append, List.map_cons, List.map_nil]
    rw [yinDiff_eq_sqDiff]
    have h1n : 1 + n = n + 1 := by omega
    rw [h1n, ← hsum]
    simp [List.append_assoc]

theorem yinNormBuffer_eq (buffer : List K) :
    yinNormBuffer buffer =
      [1] ++ (List.range' 1 (buffer.length / 2 - 1)).map
        (fun tau => sqDiff buffer (buffer.length / 2) tau *
          ((tau : K) / sqDiffSum buffer (buffer.length / 2) tau)) := by
  unfold yinNormBuffer yinLoop
  rw [yinLoop_closed_form]

theorem yinNormBuffer_getD_zero (buffer : List K) :
    (yinNormBuffer buffer).getD 0 0 = 1 := by
  rw [yinNormBuffer_eq]; rfl

theorem yinNormBuffer_getD (buffer : List K) (tau : ℕ) (h1 : 1 ≤ tau)
    (h2 : tau < buffer.length / 2) :
    (yinNormBuffer buffer).getD tau 0 =
      sqDiff buffer (buffer.length / 2) tau *
        ((tau : K) / sqDiffSum buffer (buffer.length / 2) tau) := by
  rw [yinNormBuffer_eq]
  obtain ⟨t, rfl⟩ : ∃ t, tau = t + 1 := ⟨tau - 1, by omega⟩
  have hlen : t < ((List.range' 1 (buffer.length / 2 - 1)).map
      (fun tau => sqDiff buffer (buffer.length / 2) tau *
        ((tau : K) / sqDiffSum buffer (buffer.length / 2) tau))).length := by
    simp; omega
  have hlen' : t < (List.range' 1 (buffer.length / 2 - 1)).length := by simp; omega
  rw [List.cons_append, List.nil_append, List.getD_cons_succ,
    List.getD_eq_getElem?_getD, List.getElem?_eq_getElem hlen]
  simp only [List.getElem_map, List.getElem_range' t hlen', Option.getD_some]
  norm_num [add_comm 1 t]

theorem sqDiffSum_one (buffer : List K) (halfLen : ℕ) :
    sqDiffSum buffer halfLen 1 = sqDiff buffer halfLen 1 := by
  simp [sqDiffSum]

theorem sqDiffSum_two (buffer : List K) (halfLen : ℕ) :
    sqDiffSum buffer halfLen 2 = sqDiff buffer halfLen 1 + sqDiff buffer halfLen 2 := by
  rw [sqDiffSum, show (2 : ℕ) = 1 + 1 from rfl,
    Finset.sum_Icc_succ_top (by omega) (sqDiff buffer halfLen)]
  simp

/-! ### The local-minimum walk and the threshold search (step 4) -/

theorem yinWalk_le (buf : List K) (halfLen : ℕ) (fuel tau : ℕ) :
    tau ≤ yinWalk buf halfLen fuel tau := by
  induction fuel generalizing tau with
  | zero => simp [yinWalk]
  | succ n ih =>
    rw [yinWalk]
    split
    · exact le_trans (by omega) (ih (tau + 1))
    · exact le_refl tau

theorem yinWalk_lt (buf : List K) (halfLen : ℕ) (fuel tau : ℕ) (h : tau < halfLen) :
    yinWalk buf halfLen fuel tau < halfLen := by
  induction fuel generalizing tau with
  | zero => simpa [yinWalk] using h
  | succ n ih =>
    rw [yinWalk]
    split
    · next hc => exact ih (tau + 1) hc.1
    · exact h

/-- With enough fuel, the walk result satisfies the loop's exit condition:
it is a local minimum (or sits at the end of the buffer). -/
theorem yinWalk_stop (buf : List K) (halfLen : ℕ) (fuel tau : ℕ)
    (hfuel : halfLen ≤ fuel + tau + 1) :
    ¬(yinWalk buf halfLen fuel tau + 1 < halfLen ∧
      buf.getD (yinWalk buf halfLen fuel tau + 1) 0 < buf.getD (yinWalk buf halfLen fuel tau) 0) := by
  induction fuel generalizing tau with
  | zero =>
    simp only [yinWalk]
    rintro ⟨h1, -⟩
    omega
  | succ n ih =>
    rw [yinWalk]
    split
    · exact ih (tau + 1) (by omega)
    · next hc => exact hc

/-- Along the walk, every consecutive pair strictly decreases. -/
theorem yinWalk_path (buf : List K) (halfLen : ℕ) (fuel tau : ℕ) :
    ∀ u, tau ≤ u → u < yinWalk buf halfLen fuel tau →
      buf.getD (u + 1) 0 < buf.getD u 0 := by
  induction fuel generalizing tau with
  | zero =>
    intro u h1 h2
    rw [yinWalk] at h2
    omega
  | succ n ih =>
    intro u h1 h2
    rw [yinWalk] at h2
    by_cases hc : tau + 1 < halfLen ∧ buf.getD (tau + 1) 0 < buf.getD tau 0
    · rw [if_pos hc] at h2
      rcases Nat.eq_or_lt_of_le h1 with rfl | h1'
      · exact hc.2
      · exact ih (tau + 1) u h1' h2
    · rw [if_neg hc] at h2
      omega

/-- The walk never increases the buffer value. -/
theorem yinWalk_value_le (buf : List K) (halfLen : ℕ) (fuel tau : ℕ) :
    buf.getD (yinWalk buf halfLen fuel tau) 0 ≤ buf.getD tau 0 := by
  induction fuel generalizing tau with
  | zero => simp [yinWalk]
  | succ n ih =>
    rw [yinWalk]
    split
    · next hc => exact le_trans (ih (tau + 1)) (le_of_lt hc.2)
    · exact le_refl _

/-- A successful search yields the walk of the first threshold crossing
`t0`: everything scanned before `t0` stayed at or above the threshold. -/
theorem yinSearch_some (buf : List K) (halfLen : ℕ) (fuel tau t : ℕ)
    (h : yinSearch buf halfLen fuel tau = some t) :
    ∃ t0, tau ≤ t0 ∧ t0 < halfLen ∧ buf.getD t0 0 < 0.15 ∧
      (∀ u, tau ≤ u → u < t0 → ¬(buf.getD u 0 < 0.15)) ∧
      t = yinWalk buf halfLen halfLen t0 := by
  induction fuel generalizing tau with
  | zero => simp [yinSearch] at h
  | succ n ih =>
    rw [yinSearch] at h
    by_cases h1 : tau < halfLen
    · rw [if_pos h1] at h
      by_cases h2 : buf.getD tau 0 < 0.15
      · rw [if_pos h2] at h
        exact ⟨tau, le_refl tau, h1, h2, fun u hu1 hu2 => absurd hu1 (by omega),
          Option.some_inj.mp h.symm⟩
      · rw [if_neg h2] at h
        obtain ⟨t0, ht1, ht2, ht3, ht4, ht5⟩ := ih (tau + 1) h
        refine ⟨t0, by omega, ht2, ht3, fun u hu1 hu2 => ?_, ht5⟩
        rcases Nat.eq_or_lt_of_le hu1 with rfl | hu1'
        · exact h2
        · exact ht4 u hu1' hu2
    · rw [if_neg h1] at h
      exact absurd h (by simp)

/-- A failed search means no scanned lag ever dropped below the threshold. -/
theorem yinSearch_none (buf : List K) (halfLen : ℕ) (fuel tau : ℕ)
    (hfuel : halfLen ≤ fuel + tau) (h : yinSearch buf halfLen fuel tau = none) :
    ∀ u, tau ≤ u → u < halfLen → ¬(buf.getD u 0 < 0.15) := by
  induction fuel generalizing tau with
  | zero => intro u h1 h2; omega
  | succ n ih =>
    rw [yinSearch] at h
    intro u h1 h2
    rw [if_pos (by omega : tau < halfLen)] at h
    by_cases h3 : buf.getD tau 0 < 0.15
    · rw [if_pos h3] at h; exact absurd h (by simp)
    · rw [if_neg h3] at h
      rcases Nat.eq_or_lt_of_le h1 with rfl | h1'
      · exact h3
      · exact ih (tau + 1) (by omega) h u h1' h2

/-- Conversely, if no lag in range crosses the threshold the search fails. -/
theorem yinSearch_none_of (buf : List K) (halfLen : ℕ) (fuel tau : ℕ)
    (h : ∀ u, tau ≤ u → u < halfLen → ¬(buf.getD u 0 < 0.15)) :
    yinSearch buf halfLen fuel tau = none := by
  induction fuel generalizing tau with
  | zero => rfl
  | succ n ih =>
    rw [yinSearch]
    by_cases h1 : tau < halfLen
    · rw [if_pos h1, if_neg (h tau (le_refl tau) h1)]
      exact ih (tau + 1) fun u hu1 hu2 => h u (by omega) hu2
    · rw [if_neg h1]

/-! ### Facts about a successful search at the call site of `yinDetect`
(`yinSearch buf halfLen halfLen 2`) -/

theorem yinFound_basic (buffer : List K) (t : ℕ)
    (h : yinSearch (yinNormBuffer buffer) (buffer.length / 2) (buffer.length / 2) 2 = some t) :
    2 ≤ t ∧ t < buffer.length / 2 ∧ (yinNormBuffer buffer).getD t 0 < 0.15 := by
  obtain ⟨t0, ht1, ht2, ht3, -, ht5⟩ := yinSearch_some _ _ _ _ _ h
  subst ht5
  exact ⟨le_trans ht1 (yinWalk_le _ _ _ _), yinWalk_lt _ _ _ _ ht2,
    lt_of_le_of_lt (yinWalk_value_le _ _ _ _) ht3⟩

theorem yinFound_stop (buffer : List K) (t : ℕ)
    (h : yinSearch (yinNormBuffer buffer) (buffer.length / 2) (buffer.length / 2) 2 = some t) :
    ¬(t + 1 < buffer.length / 2 ∧
      (yinNormBuffer buffer).getD (t + 1) 0 < (yinNormBuffer buffer).getD t 0) := by
  obtain ⟨t0, -, -, -, -, ht5⟩ := yinSearch_some _ _ _ _ _ h
  subst ht5
  exact yinWalk_stop _ _ _ _ (by omega)

/-- At a successful estimate `t`, the sample one to the left is strictly
larger — except in the fully degenerate situation where the normalised
buffer is `0` at both `t-1` and `t` (which requires the first squared
differences to vanish identically). -/
theorem yinFound_prev (buffer : List K) (t : ℕ)
    (h : yinSearch (yinNormBuffer buffer) (buffer.length / 2) (buffer.length / 2) 2 = some t) :
    (yinNormBuffer buffer).getD t 0 < (yinNormBuffer buffer).getD (t - 1) 0 ∨
    ((yinNormBuffer buffer).getD (t - 1) 0 = 0 ∧ (yinNormBuffer buffer).getD t 0 = 0) := by
  obtain ⟨t0, ht1, ht2, ht3, ht4, ht5⟩ := yinSearch_some _ _ _ _ _ h
  have hle : t0 ≤ t := ht5 ▸ yinWalk_le _ _ _ _
  rcases Nat.eq_or_lt_of_le hle with heq | hlt
  · -- the walk did not advance: `t = t0` is the first threshold crossing
    subst heq
    rcases Nat.eq_or_lt_of_le ht1 with h2 | h3
    · -- first crossing at `tau = 2`: compare with the normalised value at 1
      have h2' : t0 = 2 := h2.symm
      subst h2'
      have h1lt : 1 < buffer.length / 2 := by omega
      have hb1 : (yinNormBuffer buffer).getD 1 0 =
          sqDiff buffer (buffer.length / 2) 1 *
            ((1 : K) / sqDiffSum buffer (buffer.length / 2) 1) := by
        simpa using yinNormBuffer_getD buffer 1 (le_refl 1) h1lt
      have hb2 : (yinNormBuffer buffer).getD 2 0 =
          sqDiff buffer (buffer.length / 2) 2 *
            ((2 : K) / sqDiffSum buffer (buffer.length / 2) 2) := by
        simpa using yinNormBuffer_getD buffer 2 (by omega) ht2
      by_cases hd1 : sqDiff buffer (buffer.length / 2) 1 = 0
      · by_cases hd2 : sqDiff buffer (buffer.length / 2) 2 = 0
        · refine Or.inr ⟨?_, ?_⟩
          · rw [show (2 : ℕ) - 1 = 1 from rfl, hb1, hd1, zero_mul]
          · rw [hb2, hd2, zero_mul]
        · exfalso
          have : (yinNormBuffer buffer).getD 2 0 = 2 := by
            rw [hb2, sqDiffSum_two, hd1, zero_add]
            field_simp
          rw [this] at ht3
          norm_num at ht3
      · have hb1' : (yinNormBuffer buffer).getD 1 0 = 1 := by
          rw [hb1, sqDiffSum_one, mul_one_div, div_self hd1]
        refine Or.inl ?_
        rw [show (2 : ℕ) - 1 = 1 from rfl, hb1']
        calc (yinNormBuffer buffer).getD 2 0 < 0.15 := ht3
          _ < 1 := by norm_num
    · -- first crossing at `tau = t0 ≥ 3`: the scan saw `buf[t0-1] ≥ 0.15`
      have hprev : ¬((yinNormBuffer buffer).getD (t0 - 1) 0 < 0.15) :=
        ht4 (t0 - 1) (by omega) (by omega)
      exact Or.inl (lt_of_lt_of_le ht3 (not_lt.mp hprev))
  · -- the walk advanced: the step from `t-1` to `t` was strictly decreasing
    refine Or.inl ?_
    have := yinWalk_path (yinNormBuffer buffer) (buffer.length / 2) (buffer.length / 2) t0
      (t - 1) (by omega) (by omega)
    simpa [show t - 1 + 1 = t by omega] using this

theorem yinDetect_found (buffer : List K) (sampleRate : K) (t : ℕ)
    (h : yinSearch (yinNormBuffer buffer) (buffer.length / 2) (buffer.length / 2) 2 = some t) :
    yinDetect buffer sampleRate =
      ⟨sampleRate / yinBetterTau (yinNormBuffer buffer) (buffer.length / 2) t,
        max 0 (min 1 (1 - (yinNormBuffer buffer).getD t 0))⟩ := by
  simp only [yinDetect, h]

theorem yinDetect_no_pitch (buffer : List K) (sampleRate : K)
    (h : yinSearch (yinNormBuffer buffer) (buffer.length / 2) (buffer.length / 2) 2 = none) :
    yinDetect buffer sampleRate = ⟨-1, 0⟩ := by
  simp only [yinDetect, h]

/-- At the right edge of the buffer the interpolation falls back to the
comparison branch, and that comparison always selects the integer lag. -/
theorem yinFound_edge (buffer : List K) (t : ℕ)
    (h : yinSearch (yinNormBuffer buffer) (buffer.length / 2) (buffer.length / 2) 2 = some t)
    (hedge : ¬(t + 1 < buffer.length / 2)) :
    yinBetterTau (yinNormBuffer buffer) (buffer.length / 2) t = (t : K) := by
  obtain ⟨ht2, -, -⟩ := yinFound_basic buffer t h
  have hx0 : (if t < 1 then t else t - 1) = t - 1 := if_neg (by omega)
  have hx2 : (if t + 1 < buffer.length / 2 then t + 1 else t) = t := if_neg hedge
  have hle : (yinNormBuffer buffer).getD t 0 ≤ (yinNormBuffer buffer).getD (t - 1) 0 := by
    rcases yinFound_prev buffer t h with h' | ⟨h1, h2⟩
    · exact le_of_lt h'
    · rw [h1, h2]
  rw [yinBetterTau]
  simp only [hx0, hx2, if_true, eq_self_iff_true,
    if_neg (show ¬(t - 1 = t) by omega)]
  rw [if_pos hle]

/-- In the interior the interpolation applies the three-point parabola
vertex formula; its denominator is strictly negative except in the fully
degenerate all-zero dip, where the formula still returns the integer lag. -/
theorem yinFound_interior (buffer : List K) (t : ℕ)
    (h : yinSearch (yinNormBuffer buffer) (buffer.length / 2) (buffer.length / 2) 2 = some t)
    (hint : t + 1 < buffer.length / 2) :
    yinBetterTau (yinNormBuffer buffer) (buffer.length / 2) t =
      (t : K) + ((yinNormBuffer buffer).getD (t + 1) 0 - (yinNormBuffer buffer).getD (t - 1) 0) /
        (2 * (2 * (yinNormBuffer buffer).getD t 0 - (yinNormBuffer buffer).getD (t + 1) 0 -
          (yinNormBuffer buffer).getD (t - 1) 0)) ∧
    (2 * (2 * (yinNormBuffer buffer).getD t 0 - (yinNormBuffer buffer).getD (t + 1) 0 -
        (yinNormBuffer buffer).getD (t - 1) 0) < 0 ∨
      ((yinNormBuffer buffer).getD (t - 1) 0 = 0 ∧ (yinNormBuffer buffer).getD t 0 = 0 ∧
        (yinNormBuffer buffer).getD (t + 1) 0 = 0 ∧
        yinBetterTau (yinNormBuffer buffer) (buffer.length / 2) t = (t : K))) := by
  obtain ⟨ht2, -, -⟩ := yinFound_basic buffer t h
  have hx0 : (if t < 1 then t else t - 1) = t - 1 := if_neg (by omega)
  have hx2 : (if t + 1 < buffer.length / 2 then t + 1 else t) = t + 1 := if_pos hint
  have hform : yinBetterTau (yinNormBuffer buffer) (buffer.length / 2) t =
      (t : K) + ((yinNormBuffer buffer).getD (t + 1) 0 - (yinNormBuffer buffer).getD (t - 1) 0) /
        (2 * (2 * (yinNormBuffer buffer).getD t 0 - (yinNormBuffer buffer).getD (t + 1) 0 -
          (yinNormBuffer buffer).getD (t - 1) 0)) := by
    rw [yinBetterTau]
    simp only [hx0, hx2]
    rw [if_neg (by omega : ¬(t - 1 = t)), if_neg (by omega : ¬(t + 1 = t))]
  refine ⟨hform, ?_⟩
  have hs2 : (yinNormBuffer buffer).getD t 0 ≤ (yinNormBuffer buffer).getD (t + 1) 0 := by
    have := yinFound_stop buffer t h
    rcases not_and_or.mp this with h' | h'
    · exact absurd hint h'
    · exact not_lt.mp h'
  rcases yinFound_prev buffer t h with h' | ⟨h0, h1⟩
  · exact Or.inl (by linarith)
  · by_cases hs20 : (yinNormBuffer buffer).getD (t + 1) 0 = 0
    · refine Or.inr ⟨h0, h1, hs20, ?_⟩
      rw [hform, h0, h1, hs20]
      simp
    · have hs2' := hs2
      rw [h1] at hs2'
      have : 0 < (yinNormBuffer buffer).getD (t + 1) 0 := lt_of_le_of_ne hs2' (Ne.symm hs20)
      exact Or.inl (by linarith)

/-! ### The detecting branch of the session step -/

/-- When the session is listening, not learning, and the frame is not
silent, `detectPitch` runs the denoise → estimate → gate pipeline. -/
theorem detectPitch_detecting (s : TunerState) (frame : List ℝ) (sampleRate : ℝ)
    (hL : s.isListening = true) (hN : s.isLearningNoise = false)
    (hrms : ¬(frameRms frame < 0.008)) :
    detectPitch s frame sampleRate =
      (if (yinDetect (cleanResult s frame).1 sampleRate).frequency ≠ -1 ∧
          (getFrequencyBounds (activeStrings s)).low <
            (yinDetect (cleanResult s frame).1 sampleRate).frequency ∧
          (yinDetect (cleanResult s frame).1 sampleRate).frequency <
            (getFrequencyBounds (activeStrings s)).high then
        if 0.85 ≤ (yinDetect (cleanResult s frame).1 sampleRate).confidence then
          updateUI
            (updateConfidence { s with canceller := (cleanResult s frame).2 }
              (yinDetect (cleanResult s frame).1 sampleRate).confidence)
            (yinDetect (cleanResult s frame).1 sampleRate).frequency
        else
          updateConfidence { s with canceller := (cleanResult s frame).2 }
            (yinDetect (cleanResult s frame).1 sampleRate).confidence
      else
        updateConfidence { s with canceller := (cleanResult s frame).2 }
          (yinDetect (cleanResult s frame).1 sampleRate).confidence) := by
  rw [detectPitch, if_neg (by simp [hL]), if_neg hrms, if_neg (by simp [hN])]

/-- `updateConfidence` writes only the two confidence-display fields. -/
theorem updateConfidence_only (s : TunerState) (confidence : ℝ) :
    (updateConfidence s confidence).smoothedCents = s.smoothedCents ∧
    (updateConfidence s confidence).wasInTune = s.wasInTune ∧
    (updateConfidence s confidence).displayedNote = s.displayedNote ∧
    (updateConfidence s confidence).displayedOctave = s.displayedOctave ∧
    (updateConfidence s confidence).displayedFreq = s.displayedFreq ∧
    (updateConfidence s confidence).needlePercent = s.needlePercent ∧
    (updateConfidence s confidence).statusClass = s.statusClass ∧
    (updateConfidence s confidence).pitchHistory = s.pitchHistory ∧
    (updateConfidence s confidence).historyIndex = s.historyIndex ∧
    (updateConfidence s confidence).historyCount = s.historyCount ∧
    (updateConfidence s confidence).lockedString = s.lockedString :=
  ⟨rfl, rfl, rfl, rfl, rfl, rfl, rfl, rfl, rfl, rfl, rfl⟩

/-! ## The claims -/

/-- A small frame used to exercise the estimator: period 2 with an exact
dip of the normalised difference at lag 2. -/
def yinSample : List ℚ := [0, 1, 0, 1, 0, 1, 0, 1]

theorem yinSample_normBuffer : yinNormBuffer yinSample = [1, 1, 0, 3 / 2] := by
  norm_num [yinSample, yinNormBuffer, yinLoop, yinDiff, List.range', List.range_succ]

theorem yinSample_search :
    yinSearch (yinNormBuffer yinSample) (yinSample.length / 2) (yinSample.length / 2) 2 =
      some 2 := by
  rw [show yinSample.length / 2 = 4 from rfl, yinSample_normBuffer]
  norm_num [yinSearch, yinWalk]

/-- **C1.**  For every frame buffer with `halfLen = ⌊N/2⌋` the estimator's
normalised buffer holds the sentinel `1` at index 0 and, at every lag
`tau ∈ [1, halfLen)`, the value `d(tau) * tau / (d(1) + ... + d(tau))`
where `d(tau) = Σ_{i=0}^{halfLen-1} (frame[i] - frame[i+tau])²`; and when
the threshold search finds a period estimate `t`, the reported confidence
is `1 - d'(t)` clamped to `[0, 1]`. -/
theorem C1_difference_function_normalization_confidence {K : Type*} [LinearOrderedField K] :
    (∀ (buffer : List K), (yinNormBuffer buffer).getD 0 0 = 1) ∧
    (∀ (buffer : List K) (tau : ℕ), 1 ≤ tau → tau < buffer.length / 2 →
      (yinNormBuffer buffer).getD tau 0 =
        sqDiff buffer (buffer.length / 2) tau * (tau : K) /
          sqDiffSum buffer (buffer.length / 2) tau) ∧
    (∀ (buffer : List K) (sampleRate : K) (t : ℕ),
      yinSearch (yinNormBuffer buffer) (buffer.length / 2) (buffer.length / 2) 2 = some t →
      (yinDetect buffer sampleRate).confidence =
        max 0 (min 1 (1 - (yinNormBuffer buffer).getD t 0))) := by
  refine ⟨fun buffer => yinNormBuffer_getD_zero buffer, fun buffer tau h1 h2 => ?_,
    fun buffer sampleRate t h => ?_⟩
  · rw [yinNormBuffer_getD buffer tau h1 h2, mul_div_assoc]
  · rw [yinDetect_found buffer sampleRate t h]

theorem C1_witness :
    ((1 ≤ 3 ∧ 3 < yinSample.length / 2) ∧
      (yinNormBuffer yinSample).getD 3 0 =
        sqDiff yinSample (yinSample.length / 2) 3 * (3 : ℚ) /
          sqDiffSum yinSample (yinSample.length / 2) 3) ∧
    (yinSearch (yinNormBuffer yinSample) (yinSample.length / 2) (yinSample.length / 2) 2 =
        some 2 ∧
      (yinDetect yinSample 44100).confidence =
        max 0 (min 1 (1 - (yinNormBuffer yinSample).getD 2 0))) :=
  ⟨⟨⟨by norm_num, by norm_num [yinSample]⟩,
    C1_difference_function_normalization_confidence.2.1 yinSample 3 (by norm_num) (by norm_num [yinSample])⟩,
   ⟨yinSample_search,
    C1_difference_function_normalization_confidence.2.2 yinSample 44100 2 yinSample_search⟩⟩

/-- **C9.**  For every found integer period estimate `t`: the estimate lies
in `[2, halfLen)`; the returned frequency is always `sampleRate /
betterTau` together with the clamped confidence; in the interior,
`betterTau` is given by the standard three-point parabola vertex formula
whose denominator is strictly negative except in the fully degenerate
all-zero dip, where the result is the integer estimate itself (the value
the neighbour comparison selects, all three samples being equal); at the
right buffer edge (where `x2` is clamped to reuse the boundary sample) the
fallback comparison always selects the integer estimate. -/
theorem C9_parabolic_interpolation_safety {K : Type*} [LinearOrderedField K] :
    ∀ (buffer : List K) (sampleRate : K) (t : ℕ),
      yinSearch (yinNormBuffer buffer) (buffer.length / 2) (buffer.length / 2) 2 = some t →
      (2 ≤ t ∧ t < buffer.length / 2) ∧
      yinDetect buffer sampleRate =
        ⟨sampleRate / yinBetterTau (yinNormBuffer buffer) (buffer.length / 2) t,
          max 0 (min 1 (1 - (yinNormBuffer buffer).getD t 0))⟩ ∧
      (t + 1 < buffer.length / 2 →
        yinBetterTau (yinNormBuffer buffer) (buffer.length / 2) t =
          (t : K) +
            ((yinNormBuffer buffer).getD (t + 1) 0 - (yinNormBuffer buffer).getD (t - 1) 0) /
              (2 * (2 * (yinNormBuffer buffer).getD t 0 -
                (yinNormBuffer buffer).getD (t + 1) 0 -
                (yinNormBuffer buffer).getD (t - 1) 0)) ∧
        (2 * (2 * (yinNormBuffer buffer).getD t 0 - (yinNormBuffer buffer).getD (t + 1) 0 -
            (yinNormBuffer buffer).getD (t - 1) 0) < 0 ∨
          ((yinNormBuffer buffer).getD (t - 1) 0 = 0 ∧ (yinNormBuffer buffer).getD t 0 = 0 ∧
            (yinNormBuffer buffer).getD (t + 1) 0 = 0 ∧
            yinBetterTau (yinNormBuffer buffer) (buffer.length / 2) t = (t : K)))) ∧
      (¬(t + 1 < buffer.length / 2) →
        yinBetterTau (yinNormBuffer buffer) (buffer.length / 2) t = (t : K)) := by
  intro buffer sampleRate t h
  obtain ⟨h2, hlt, -⟩ := yinFound_basic buffer t h
  exact ⟨⟨h2, hlt⟩, yinDetect_found buffer sampleRate t h,
    fun hint => yinFound_interior buffer t h hint,
    fun hedge => yinFound_edge buffer t h hedge⟩

theorem C9_witness :
    yinSearch (yinNormBuffer yinSample) (yinSample.length / 2) (yinSample.length / 2) 2 =
        some 2 ∧
    (2 ≤ 2 ∧ 2 < yinSample.length / 2) ∧
    yinDetect yinSample 44100 =
      ⟨44100 / yinBetterTau (yinNormBuffer yinSample) (yinSample.length / 2) 2,
        max 0 (min 1 (1 - (yinNormBuffer yinSample).getD 2 0))⟩ :=
  ⟨yinSample_search,
    (C9_parabolic_interpolation_safety yinSample 44100 2 yinSample_search).1,
    (C9_parabolic_interpolation_safety yinSample 44100 2 yinSample_search).2.1⟩

/-- **C2.**  While the session is detecting (listening, not learning, frame
not silent), the tuning feedback is updated — via `updateUI` — exactly when
the estimate passes the gate (`frequency` strictly inside the bounds and
`confidence ≥ 0.85`, the source additionally checking `frequency !== -1`);
an estimate failing the bounds-and-confidence condition leaves every
tuning-feedback field unchanged and updates only the confidence display
(and the denoiser's internal state). -/
theorem C2_detection_gate :
    ∀ (s : TunerState) (frame : List ℝ) (sampleRate : ℝ)
      (r : List ℝ × Option NoiseCancellerState) (result : DetectionResult ℝ)
      (s2 : TunerState) (bounds : FrequencyBounds),
      r = cleanResult s frame →
      result = yinDetect r.1 sampleRate →
      s2 = updateConfidence { s with canceller := r.2 } result.confidence →
      bounds = getFrequencyBounds (activeStrings s) →
      s.isListening = true → s.isLearningNoise = false →
      ¬(frameRms frame < 0.008) →
      ((¬(bounds.low < result.frequency ∧ result.frequency < bounds.high ∧
            0.85 ≤ result.confidence) →
          detectPitch s frame sampleRate = s2 ∧
          s2.smoothedCents = s.smoothedCents ∧ s2.wasInTune = s.wasInTune ∧
          s2.displayedNote = s.displayedNote ∧ s2.displayedOctave = s.displayedOctave ∧
          s2.displayedFreq = s.displayedFreq ∧ s2.needlePercent = s.needlePercent ∧
          s2.statusClass = s.statusClass ∧ s2.pitchHistory = s.pitchHistory ∧
          s2.historyIndex = s.historyIndex ∧ s2.historyCount = s.historyCount ∧
          s2.lockedString = s.lockedString) ∧
        (result.frequency ≠ -1 ∧ bounds.low < result.frequency ∧
            result.frequency < bounds.high ∧ 0.85 ≤ result.confidence →
          detectPitch s frame sampleRate = updateUI s2 result.frequency)) := by
  intro s frame sampleRate r result s2 bounds hr hresult hs2 hbounds hL hN hrms
  subst hr hresult hs2 hbounds
  rw [detectPitch_detecting s frame sampleRate hL hN hrms]
  constructor
  · intro hng
    by_cases hg : (yinDetect (cleanResult s frame).1 sampleRate).frequency ≠ -1 ∧
        (getFrequencyBounds (activeStrings s)).low <
          (yinDetect (cleanResult s frame).1 sampleRate).frequency ∧
        (yinDetect (cleanResult s frame).1 sampleRate).frequency <
          (getFrequencyBounds (activeStrings s)).high
    · have hconf : ¬(0.85 ≤ (yinDetect (cleanResult s frame).1 sampleRate).confidence) :=
        fun hc => hng ⟨hg.2.1, hg.2.2, hc⟩
      rw [if_pos hg, if_neg hconf]
      exact ⟨rfl, updateConfidence_only _ _⟩
    · rw [if_neg hg]
      exact ⟨rfl, updateConfidence_only _ _⟩
  · intro hgate
    rw [if_pos ⟨hgate.1, hgate.2.1, hgate.2.2.1⟩, if_pos hgate.2.2.2]

/-- The frame used to exercise the session step: loud (RMS 1) and too short
for any lag to be scanned, so the estimator reports no pitch. -/
noncomputable def sampleFrame : List ℝ := [1, -1, 1, -1]

/-- A session state in the detecting phase with no noise canceller. -/
noncomputable def sampleState : TunerState :=
  { isListening := true
    isLearningNoise := false
    canceller := none
    lockedString := none
    activeTuningKey := "standard"
    a4Reference := 440
    smoothedCents := 0
    wasInTune := false
    displayedNote := "--"
    displayedOctave := none
    displayedFreq := none
    needlePercent := 50
    statusClass := ""
    confidencePct := 0
    confidenceColor := "dim"
    pitchHistory := List.replicate HISTORY_SIZE 0
    historyIndex := 0
    historyCount := 0 }

theorem sampleFrame_loud : ¬(frameRms sampleFrame < 0.008) := by
  have h : frameRms sampleFrame = 1 := by
    rw [frameRms, sampleFrame]
    norm_num [List.foldl_cons, List.foldl_nil, Real.sqrt_one]
  rw [h]; norm_num

theorem sampleFrame_no_pitch (sampleRate : ℝ) :
    yinDetect sampleFrame sampleRate = ⟨-1, 0⟩ :=
  yinDetect_no_pitch sampleFrame sampleRate
    (yinSearch_none_of _ _ _ _ fun u h1 h2 => by
      rw [show sampleFrame.length / 2 = 2 from by rw [sampleFrame]; rfl] at h2
      omega)

theorem C2_witness :
    ((sampleFrame, (none : Option NoiseCancellerState)) = cleanResult sampleState sampleFrame ∧
      (⟨-1, 0⟩ : DetectionResult ℝ) = yinDetect sampleFrame 44100 ∧
      sampleState.isListening = true ∧ sampleState.isLearningNoise = false ∧
      ¬(frameRms sampleFrame < 0.008) ∧
      ¬((getFrequencyBounds (activeStrings sampleState)).low <
          (⟨-1, 0⟩ : DetectionResult ℝ).frequency ∧
        (⟨-1, 0⟩ : DetectionResult ℝ).frequency <
          (getFrequencyBounds (activeStrings sampleState)).high ∧
        0.85 ≤ (⟨-1, 0⟩ : DetectionResult ℝ).confidence)) ∧
    detectPitch sampleState sampleFrame 44100 =
      updateConfidence { sampleState with canceller := none } 0 := by
  have hclean : (sampleFrame, (none : Option NoiseCancellerState)) =
      cleanResult sampleState sampleFrame := rfl
  have hres : (⟨-1, 0⟩ : DetectionResult ℝ) = yinDetect sampleFrame 44100 :=
    (sampleFrame_no_pitch 44100).symm
  have hng : ¬((getFrequencyBounds (activeStrings sampleState)).low <
      (⟨-1, 0⟩ : DetectionResult ℝ).frequency ∧
      (⟨-1, 0⟩ : DetectionResult ℝ).frequency <
        (getFrequencyBounds (activeStrings sampleState)).high ∧
      0.85 ≤ (⟨-1, 0⟩ : DetectionResult ℝ).confidence) := by
    rintro ⟨-, -, hc⟩
    norm_num at hc
  refine ⟨⟨hclean, hres, rfl, rfl, sampleFrame_loud, hng⟩, ?_⟩
  exact ((C2_detection_gate sampleState sampleFrame 44100
    (sampleFrame, none) ⟨-1, 0⟩
    (updateConfidence { sampleState with canceller := none } 0)
    (getFrequencyBounds (activeStrings sampleState))
    hclean hres rfl rfl rfl rfl sampleFrame_loud).1 hng).1

/-- **C3.**  The absolute-threshold search scans lags from 2 upward; a
successful result is the local minimum of the first dip under `0.15`
(strictly decreasing from the first crossing `t0` to `t`, with the next
sample no smaller); if no lag in range crosses the threshold, the
estimator returns the no-pitch record `{frequency: -1, confidence: 0}`,
and the session step silently skips such a result: it only refreshes the
confidence display (to 0) without touching the tuning feedback. -/
theorem C3_threshold_search_and_no_pitch_skip {K : Type*} [LinearOrderedField K] :
    (∀ (buffer : List K) (t : ℕ),
      yinSearch (yinNormBuffer buffer) (buffer.length / 2) (buffer.length / 2) 2 = some t →
      ∃ t0, 2 ≤ t0 ∧ t0 ≤ t ∧ t < buffer.length / 2 ∧
        (yinNormBuffer buffer).getD t0 0 < 0.15 ∧
        (∀ u, 2 ≤ u → u < t0 → ¬((yinNormBuffer buffer).getD u 0 < 0.15)) ∧
        (∀ u, t0 ≤ u → u < t →
          (yinNormBuffer buffer).getD (u + 1) 0 < (yinNormBuffer buffer).getD u 0) ∧
        ¬(t + 1 < buffer.length / 2 ∧
          (yinNormBuffer buffer).getD (t + 1) 0 < (yinNormBuffer buffer).getD t 0)) ∧
    (∀ (buffer : List K) (sampleRate : K),
      (∀ u, 2 ≤ u → u < buffer.length / 2 →
        ¬((yinNormBuffer buffer).getD u 0 < 0.15)) →
      yinDetect buffer sampleRate = ⟨-1, 0⟩) ∧
    (∀ (s : TunerState) (frame : List ℝ) (sampleRate : ℝ),
      s.isListening = true → s.isLearningNoise = false →
      ¬(frameRms frame < 0.008) →
      yinDetect (cleanResult s frame).1 sampleRate = ⟨-1, 0⟩ →
      detectPitch s frame sampleRate =
        updateConfidence { s with canceller := (cleanResult s frame).2 } 0) := by
  refine ⟨fun buffer t h => ?_, fun buffer sampleRate h => ?_,
    fun s frame sampleRate hL hN hrms hres => ?_⟩
  · obtain ⟨t0, ht1, ht2, ht3, ht4, ht5⟩ := yinSearch_some _ _ _ _ _ h
    refine ⟨t0, ht1, ht5 ▸ yinWalk_le _ _ _ _, ht5 ▸ yinWalk_lt _ _ _ _ ht2, ht3, ht4,
      fun u hu1 hu2 => yinWalk_path _ _ _ _ u hu1 (by rw [← ht5]; exact hu2), ?_⟩
    · rw [ht5]
      exact yinWalk_stop _ _ _ _ (by omega)
  · exact yinDetect_no_pitch buffer sampleRate (yinSearch_none_of _ _ _ _ h)
  · rw [detectPitch_detecting s frame sampleRate hL hN hrms, hres]
    norm_num

theorem C3_witness :
    (yinSearch (yinNormBuffer yinSample) (yinSample.length / 2) (yinSample.length / 2) 2 =
        some 2 ∧
      (∃ t0, 2 ≤ t0 ∧ t0 ≤ 2 ∧ 2 < yinSample.length / 2 ∧
        (yinNormBuffer yinSample).getD t0 0 < 0.15 ∧
        (∀ u, 2 ≤ u → u < t0 → ¬((yinNormBuffer yinSample).getD u 0 < 0.15)) ∧
        (∀ u, t0 ≤ u → u < 2 →
          (yinNormBuffer yinSample).getD (u + 1) 0 < (yinNormBuffer yinSample).getD u 0) ∧
        ¬(2 + 1 < yinSample.length / 2 ∧
          (yinNormBuffer yinSample).getD (2 + 1) 0 < (yinNormBuffer yinSample).getD 2 0))) ∧
    ((sampleState.isListening = true ∧ sampleState.isLearningNoise = false ∧
        ¬(frameRms sampleFrame < 0.008) ∧
        yinDetect (cleanResult sampleState sampleFrame).1 44100 = ⟨-1, 0⟩) ∧
      detectPitch sampleState sampleFrame 44100 =
        updateConfidence { sampleState with canceller := (cleanResult sampleState sampleFrame).2 } 0) :=
  ⟨⟨yinSample_search,
    (C3_threshold_search_and_no_pitch_skip (K := ℚ)).1 yinSample 2 yinSample_search⟩,
   ⟨⟨rfl, rfl, sampleFrame_loud, sampleFrame_no_pitch 44100⟩,
    (C3_threshold_search_and_no_pitch_skip (K := ℚ)).2.2 sampleState sampleFrame 44100 rfl rfl
      sampleFrame_loud (sampleFrame_no_pitch 44100)⟩⟩

/-! ### Calibration clamp and invariant (C6) -/

theorem calibInv_preserved (s : CalibState) (op : CalibOp) (h : CalibInv s) :
    CalibInv (applyCalibOp s op) := by
  obtain ⟨⟨ha1, ha2⟩, hst⟩ := h
  cases op with
  | setCal v =>
    have h1 : (432 : ℚ) ≤ max 432 (min 446 v) := le_max_left _ _
    have h2 : max 432 (min 446 v) ≤ (446 : ℚ) :=
      max_le (by norm_num) (min_le_left _ _)
    exact ⟨⟨h1, h2⟩, fun w hw => by
      rw [applyCalibOp, setA4] at hw
      simp only [Option.some_inj] at hw
      exact hw ▸ ⟨h1, h2⟩⟩
  | restore =>
    obtain ⟨a4, st⟩ := s
    cases st with
    | none => exact ⟨⟨ha1, ha2⟩, hst⟩
    | some v =>
      obtain ⟨hv1, hv2⟩ := hst v rfl
      have hfl : jsParseIntQ v = ⌊v⌋ := (Rat.floor_def).symm
      have hp1 : (432 : ℤ) ≤ jsParseIntQ v := by
        rw [hfl]
        exact Int.le_floor.mpr (by exact_mod_cast hv1)
      have hp2 : jsParseIntQ v ≤ (446 : ℤ) := by
        rw [hfl]
        have := (Int.floor_le v).trans hv2
        exact_mod_cast this
      have hne : ¬(jsParseIntQ v = 0) := by omega
      refine ⟨⟨?_, ?_⟩, fun w hw => hst w hw⟩
      · show (432 : ℚ) ≤ (restoreA4 ⟨a4, some v⟩).a4Reference
        simp only [restoreA4, if_neg hne]
        exact_mod_cast hp1
      · show (restoreA4 ⟨a4, some v⟩).a4Reference ≤ (446 : ℚ)
        simp only [restoreA4, if_neg hne]
        exact_mod_cast hp2

theorem calibInv_foldl (ops : List CalibOp) :
    ∀ s : CalibState, CalibInv s → CalibInv (ops.foldl applyCalibOp s) := by
  induction ops with
  | nil => exact fun s h => h
  | cons op rest ih => exact fun s h => ih _ (calibInv_preserved s op h)

/-- **C6.**  `setA4` clamps out-of-range calibration inputs instead of
raising an error (`450 ↦ 446`, `400 ↦ 432`), and after every sequence of
calibration operations of the system (clamped updates and the
`localStorage` restore performed by `init`) the reference satisfies
`432 ≤ a4Reference ≤ 446`. -/
theorem C6_calibration_clamp_and_invariant :
    (setA4 initCalib 450).a4Reference = 446 ∧
    (setA4 initCalib 400).a4Reference = 432 ∧
    (∀ ops : List CalibOp,
      432 ≤ (runCalib ops).a4Reference ∧ (runCalib ops).a4Reference ≤ 446) := by
  refine ⟨?_, ?_, fun ops => ?_⟩
  · show max 432 (min 446 (450 : ℚ)) = 446
    rw [min_eq_left (by norm_num), max_eq_right (by norm_num)]
  · show max 432 (min 446 (400 : ℚ)) = 432
    rw [min_eq_right (by norm_num), max_eq_left (by norm_num)]
  · exact (calibInv_foldl ops initCalib
      ⟨⟨by norm_num [initCalib], by norm_num [initCalib]⟩,
        fun v hv => by simp [initCalib] at hv⟩).1

/-! ### The smoothing accumulator (C8) -/

/-- **C8.**  On every accepted frame `updateUI` updates the accumulator as
`smoothedCents * 0.6 + cents * 0.4`; `stopTuner` resets it to `0`; and
feeding a constant cents value `C` for `k` frames starting from `0` yields
exactly `C - C * 0.6^k`. -/
theorem C8_smoothing_update_reset_convergence :
    (∀ (s : TunerState) (frequency : ℝ),
      (updateUI s frequency).smoothedCents =
        smoothUpdate s.smoothedCents
          (1200 * Real.logb 2 (frequency / (resolveTarget s frequency).freq))) ∧
    (∀ s : TunerState, (stopTuner s).smoothedCents = 0) ∧
    (∀ (C : ℝ) (k : ℕ), (fun x => smoothUpdate x C)^[k] 0 = C - C * 0.6 ^ k) := by
  refine ⟨fun s frequency => rfl, fun s => rfl, fun C k => ?_⟩
  induction k with
  | zero => simp
  | succ n ih =>
    rw [Function.iterate_succ_apply', ih, smoothUpdate]
    ring

/-! ### Nearest-string search (C7) -/

/-- Invariant of the `findClosestString` scan once the running minimum is
set: either no later string beats it and the accumulator survives, or the
result is the first string attaining the minimum distance. -/
theorem closest_fold_spec (freq : ℝ) (l : List ActiveString) :
    ∀ (best : ActiveString) (m : ℝ),
      ((∀ x ∈ l, ¬(centsDist freq x < m)) ∧
        l.foldl (closestStep freq) (best, some m) = (best, some m)) ∨
      (∃ i, i < l.length ∧
        l.foldl (closestStep freq) (best, some m) =
          (l.getD i defaultActiveString, some (centsDist freq (l.getD i defaultActiveString))) ∧
        centsDist freq (l.getD i defaultActiveString) < m ∧
        (∀ x ∈ l, centsDist freq (l.getD i defaultActiveString) ≤ centsDist freq x) ∧
        (∀ j, j < i → centsDist freq (l.getD i defaultActiveString) <
          centsDist freq (l.getD j defaultActiveString))) := by
  induction l with
  | nil => exact fun best m => Or.inl ⟨fun x hx => absurd hx (List.not_mem_nil x), rfl⟩
  | cons a t ih =>
    intro best m
    by_cases ha : centsDist freq a < m
    · have hstep : closestStep freq (best, some m) a = (a, some (centsDist freq a)) := by
        rw [closestStep]
        simp [if_pos ha]
      rw [List.foldl_cons, hstep]
      rcases ih a (centsDist freq a) with ⟨hall, heq⟩ | ⟨i, hi, heq, hlt, hmin, hstrict⟩
      · refine Or.inr ⟨0, by simp, by simpa using heq, by simpa using ha, ?_, ?_⟩
        · intro x hx
          rcases List.mem_cons.mp hx with rfl | hx'
          · simp
          · simpa using not_lt.mp (hall x hx')
        · intro j hj
          omega
      · refine Or.inr ⟨i + 1, by simpa using Nat.succ_lt_succ hi, by simpa using heq,
          lt_trans (by simpa using hlt) ha, ?_, ?_⟩
        · intro x hx
          rcases List.mem_cons.mp hx with rfl | hx'
          · exact le_of_lt (by simpa using hlt)
          · simpa using hmin x hx'
        · intro j hj
          cases j with
          | zero => simpa using hlt
          | succ k => simpa using hstrict k (by omega)
    · have hstep : closestStep freq (best, some m) a = (best, some m) := by
        rw [closestStep]
        simp [if_neg ha]
      rw [List.foldl_cons, hstep]
      rcases ih best m with ⟨hall, heq⟩ | ⟨i, hi, heq, hlt, hmin, hstrict⟩
      · refine Or.inl ⟨fun x hx => ?_, heq⟩
        rcases List.mem_cons.mp hx with rfl | hx'
        · exact ha
        · exact hall x hx'
      · refine Or.inr ⟨i + 1, by simpa using Nat.succ_lt_succ hi, by simpa using heq,
          by simpa using hlt, ?_, ?_⟩
        · intro x hx
          rcases List.mem_cons.mp hx with rfl | hx'
          · exact le_of_lt (lt_of_lt_of_le (by simpa using hlt) (not_lt.mp ha))
          · simpa using hmin x hx'
        · intro j hj
          cases j with
          | zero =>
            simpa using lt_of_lt_of_le (by simpa using hlt) (not_lt.mp ha)
          | succ k => simpa using hstrict k (by omega)

/-- **C7.**  For every frequency `f > 0` and every nonempty set of active
strings with positive frequencies, `findClosestString` returns a string of
the set minimising the absolute cents distance `|1200 * log2(f / freq)|` —
no string has a strictly smaller distance — and on ties the first
occurrence in profile order wins: every earlier string has a strictly
larger distance. -/
theorem C7_nearest_string_minimum :
    ∀ (strings : List ActiveString) (f : ℝ),
      strings ≠ [] → 0 < f → (∀ s ∈ strings, 0 < s.freq) →
      ∃ i, i < strings.length ∧
        findClosestString f strings = strings.getD i defaultActiveString ∧
        (∀ s ∈ strings, centsDist f (strings.getD i defaultActiveString) ≤ centsDist f s) ∧
        (∀ j, j < i →
          centsDist f (strings.getD i defaultActiveString) <
            centsDist f (strings.getD j defaultActiveString)) := by
  intro strings f hne hf hpos
  obtain ⟨s0, rest, rfl⟩ := List.exists_cons_of_ne_nil hne
  rw [findClosestString]
  have h1 : List.foldl (closestStep f) ((s0 :: rest).headD defaultActiveString, none)
      (s0 :: rest) = List.foldl (closestStep f) (s0, some (centsDist f s0)) rest := by
    rw [List.headD_cons, List.foldl_cons, closestStep]
  rw [h1]
  rcases closest_fold_spec f rest s0 (centsDist f s0) with
    ⟨hall, heq⟩ | ⟨i, hi, heq, hlt, hmin, hstrict⟩
  · refine ⟨0, by simp, by rw [heq]; simp, ?_, fun j hj => absurd hj (by omega)⟩
    intro x hx
    rcases List.mem_cons.mp hx with rfl | hx'
    · simp
    · simpa using not_lt.mp (hall x hx')
  · refine ⟨i + 1, by simpa using Nat.succ_lt_succ hi, by rw [heq]; simp, ?_, ?_⟩
    · intro x hx
      rcases List.mem_cons.mp hx with rfl | hx'
      · exact le_of_lt (by simpa using hlt)
      · simpa using hmin x hx'
    · intro j hj
      cases j with
      | zero => simpa using hlt
      | succ k => simpa using hstrict k (by omega)

/-- Two strings, frequencies 1 and 2 Hz, for exercising the search. -/
noncomputable def witnessStrings : List ActiveString := [⟨"A", 4, 1, 6⟩, ⟨"B", 4, 2, 5⟩]

theorem C7_witness :
    (witnessStrings ≠ [] ∧ 0 < (2 : ℝ) ∧ ∀ s ∈ witnessStrings, 0 < s.freq) ∧
    (∃ i, i < witnessStrings.length ∧
      findClosestString 2 witnessStrings = witnessStrings.getD i defaultActiveString ∧
      (∀ s ∈ witnessStrings,
        centsDist 2 (witnessStrings.getD i defaultActiveString) ≤ centsDist 2 s) ∧
      (∀ j, j < i →
        centsDist 2 (witnessStrings.getD i defaultActiveString) <
          centsDist 2 (witnessStrings.getD j defaultActiveString))) := by
  have hpos : ∀ s ∈ witnessStrings, 0 < s.freq := by
    intro s hs
    rw [witnessStrings] at hs
    rcases List.mem_cons.mp hs with rfl | hs'
    · norm_num
    · rcases List.mem_cons.mp hs' with rfl | hs''
      · norm_num
      · simp at hs''
  refine ⟨⟨by rw [witnessStrings]; simp, by norm_num, hpos⟩, ?_⟩
  exact C7_nearest_string_minimum witnessStrings 2 (by rw [witnessStrings]; simp)
    (by norm_num) hpos

/-! ### Noise-profile learning (C5) -/

/-- Feeding exactly the missing number of frames to an unlearned canceller
returns `false` on every call but the last, which returns `true` and
installs the averaged profile. -/
theorem learnFrameSeq_complete (fs : List (List ℝ)) :
    ∀ c : NoiseCancellerState, c.learned = false → fs ≠ [] →
      c.learnFrames.length + fs.length = c.learnTarget →
      learnFrameSeq c fs =
        (List.replicate (fs.length - 1) false ++ [true],
         { c with
           noiseProfile := some (averageProfile (c.fftSize / 2)
             (c.learnFrames ++ fs.map (magSpectrum c.fftSize)))
           learnFrames := []
           learned := true }) := by
  induction fs with
  | nil => exact fun c h1 h2 h3 => absurd rfl h2
  | cons f rest ih =>
    intro c h1 h2 h3
    have hunfold : learnFrameSeq c (f :: rest) =
        ((learnFrame c f).1 :: (learnFrameSeq (learnFrame c f).2 rest).1,
          (learnFrameSeq (learnFrame c f).2 rest).2) := rfl
    cases rest with
    | nil =>
      have hlen : c.learnTarget ≤ (c.learnFrames ++ [magSpectrum c.fftSize f]).length := by
        simp only [List.length_cons, List.length_nil] at h3
        simp only [List.length_append, List.length_cons, List.length_nil]
        omega
      have hstep : learnFrame c f =
          (true,
           { c with
             noiseProfile := some (averageProfile (c.fftSize / 2)
               (c.learnFrames ++ [magSpectrum c.fftSize f]))
             learnFrames := []
             learned := true }) := by
        rw [learnFrame, if_neg (by simp [h1]), if_pos hlen]
      rw [hunfold, hstep]
      simp [learnFrameSeq]
    | cons g rest' =>
      have hlt : ¬(c.learnTarget ≤ (c.learnFrames ++ [magSpectrum c.fftSize f]).length) := by
        simp only [List.length_cons] at h3
        simp only [List.length_append, List.length_cons, List.length_nil]
        omega
      have hstep : learnFrame c f =
          (false, { c with learnFrames := c.learnFrames ++ [magSpectrum c.fftSize f] }) := by
        rw [learnFrame, if_neg (by simp [h1]), if_neg hlt]
      have hrec := ih { c with learnFrames := c.learnFrames ++ [magSpectrum c.fftSize f] }
        h1 (by simp)
        (by
          simp only [List.length_append, List.length_cons, List.length_nil]
          simp only [List.length_cons] at h3
          omega)
      rw [hunfold, hstep]
      simp only [hrec]
      simp [List.replicate_succ, List.append_assoc]

/-- **C5.**  From a fresh canceller, feeding any 20 frames makes
`learnFrame` return `false` on calls 1-19 and `true` exactly on the 20th,
at which point the noise profile is the average of the 20 magnitude
spectra, the raw accumulator is discarded, and the state is `learned`;
once learned, `learnFrame` returns `true` and never changes the state
again (the transition is irreversible). -/
theorem C5_twenty_frame_learning :
    (∀ (fftSize : ℕ) (fs : List (List ℝ)), fs.length = 20 →
      learnFrameSeq (mkNoiseCanceller fftSize) fs =
        (List.replicate 19 false ++ [true],
         { fftSize := fftSize
           noiseProfile := some (averageProfile (fftSize / 2) (fs.map (magSpectrum fftSize)))
           learnFrames := []
           learnTarget := 20
           learned := true
           prevMag := none })) ∧
    (∀ (c : NoiseCancellerState) (f : List ℝ), c.learned = true →
      learnFrame c f = (true, c)) := by
  constructor
  · intro fftSize fs hlen
    have hne : fs ≠ [] := by
      intro h
      rw [h] at hlen
      simp at hlen
    have := learnFrameSeq_complete fs (mkNoiseCanceller fftSize) rfl hne
      (by simp [mkNoiseCanceller, hlen])
    rw [this, hlen]
    rfl
  · intro c f h
    rw [learnFrame, if_pos h]

/-! ### The spectral-subtraction loop (C4) -/

theorem updArr_same (a : ℕ → ℝ) (i : ℕ) (v : ℝ) : updArr a i v i = v := by
  simp [updArr]

theorem updArr_ne (a : ℕ → ℝ) (i j : ℕ) (v : ℝ) (h : j ≠ i) : updArr a i v j = a j := by
  simp [updArr, h]

/-- One `processBinStep` applied at a bin whose three reads still hold the
original transform values: the writes install the smoothed magnitude with
the original phase (and its conjugate mirror when `0 < i < n/2`). -/
theorem processBinStep_at (n : ℕ) (noise prev0 re0 im0 : ℕ → ℝ) (R I P : ℕ → ℝ) (i : ℕ)
    (hR : R i = re0 i) (hI : I i = im0 i) (hP : P i = prev0 i) :
    processBinStep n noise ((R, I), P) i =
      (if 0 < i ∧ i < n / 2 then
        ((updArr (updArr R i (binSmooth noise prev0 re0 im0 i * Real.cos (binPhase re0 im0 i)))
            (n - i) (binSmooth noise prev0 re0 im0 i * Real.cos (binPhase re0 im0 i)),
          updArr (updArr I i (binSmooth noise prev0 re0 im0 i * Real.sin (binPhase re0 im0 i)))
            (n - i)
            (-(binSmooth noise prev0 re0 im0 i * Real.sin (binPhase re0 im0 i)))),
         updArr P i (binSmooth noise prev0 re0 im0 i))
      else
        ((updArr R i (binSmooth noise prev0 re0 im0 i * Real.cos (binPhase re0 im0 i)),
          updArr I i (binSmooth noise prev0 re0 im0 i * Real.sin (binPhase re0 im0 i))),
         updArr P i (binSmooth noise prev0 re0 im0 i))) := by
  simp only [processBinStep, hR, hI, hP, updArr_same, binSmooth, binClean, binMag, binPhase]

/-- Closed form of the per-bin loop after processing bins `0..b-1`
(`n = 2*m` even): bins below `b` hold the rebuilt values, mirror positions
`2m - i` for processed `0 < i < m` hold the conjugate values, everything
else is untouched. -/
theorem processBins_fold_closed (m : ℕ) (noise prev0 re0 im0 : ℕ → ℝ) :
    ∀ b, b ≤ m + 1 →
      (List.range b).foldl (processBinStep (2 * m) noise) ((re0, im0), prev0) =
        ((fun k =>
            if k < b then binSmooth noise prev0 re0 im0 k * Real.cos (binPhase re0 im0 k)
            else if m < k ∧ k < 2 * m ∧ 2 * m - k < b then
              binSmooth noise prev0 re0 im0 (2 * m - k) *
                Real.cos (binPhase re0 im0 (2 * m - k))
            else re0 k,
          fun k =>
            if k < b then binSmooth noise prev0 re0 im0 k * Real.sin (binPhase re0 im0 k)
            else if m < k ∧ k < 2 * m ∧ 2 * m - k < b then
              -(binSmooth noise prev0 re0 im0 (2 * m - k) *
                Real.sin (binPhase re0 im0 (2 * m - k)))
            else im0 k),
         fun k => if k < b then binSmooth noise prev0 re0 im0 k else prev0 k) := by
  intro b
  induction b with
  | zero =>
    intro _
    simp only [List.range_zero, List.foldl_nil]
    refine Prod.ext (Prod.ext ?_ ?_) ?_ <;> funext k <;> simp
  | succ b ihb =>
    intro hb1
    have hb : b ≤ m := by omega
    rw [List.range_succ, List.foldl_append, ihb (by omega), List.foldl_cons, List.foldl_nil]
    have hR : (fun k =>
        if k < b then binSmooth noise prev0 re0 im0 k * Real.cos (binPhase re0 im0 k)
        else if m < k ∧ k < 2 * m ∧ 2 * m - k < b then
          binSmooth noise prev0 re0 im0 (2 * m - k) * Real.cos (binPhase re0 im0 (2 * m - k))
        else re0 k) b = re0 b := by
      simp only
      rw [if_neg (by omega), if_neg (by omega)]
    have hI : (fun k =>
        if k < b then binSmooth noise prev0 re0 im0 k * Real.sin (binPhase re0 im0 k)
        else if m < k ∧ k < 2 * m ∧ 2 * m - k < b then
          -(binSmooth noise prev0 re0 im0 (2 * m - k) * Real.sin (binPhase re0 im0 (2 * m - k)))
        else im0 k) b = im0 b := by
      simp only
      rw [if_neg (by omega), if_neg (by omega)]
    have hP : (fun k => if k < b then binSmooth noise prev0 re0 im0 k else prev0 k) b =
        prev0 b := by
      simp only
      rw [if_neg (by omega)]
    rw [processBinStep_at (2 * m) noise prev0 re0 im0 _ _ _ b hR hI hP,
      show 2 * m / 2 = m from by omega]
    by_cases hc : 0 < b ∧ b < m
    · rw [if_pos hc]
      refine Prod.ext (Prod.ext ?_ ?_) ?_ <;> funext k <;> simp only
      · by_cases hkm : k = 2 * m - b
        · subst hkm
          rw [updArr_same, if_neg (show ¬(2 * m - b < b + 1) from by omega),
            if_pos (show m < 2 * m - b ∧ 2 * m - b < 2 * m ∧ 2 * m - (2 * m - b) < b + 1
              from by omega)]
          have h2 : 2 * m - (2 * m - b) = b := by omega
          rw [h2]
        · rw [updArr_ne _ _ _ _ hkm]
          by_cases hkb : k = b
          · rw [hkb, updArr_same, if_pos (show b < b + 1 from by omega)]
          · rw [updArr_ne _ _ _ _ hkb]
            by_cases hlt : k < b
            · rw [if_pos hlt, if_pos (show k < b + 1 from by omega)]
            · rw [if_neg hlt, if_neg (show ¬(k < b + 1) from by omega)]
              by_cases hmir : m < k ∧ k < 2 * m ∧ 2 * m - k < b
              · rw [if_pos hmir,
                  if_pos (show m < k ∧ k < 2 * m ∧ 2 * m - k < b + 1 from by omega)]
              · rw [if_neg hmir,
                  if_neg (show ¬(m < k ∧ k < 2 * m ∧ 2 * m - k < b + 1) from by omega)]
      · by_cases hkm : k = 2 * m - b
        · subst hkm
          rw [updArr_same, if_neg (show ¬(2 * m - b < b + 1) from by omega),
            if_pos (show m < 2 * m - b ∧ 2 * m - b < 2 * m ∧ 2 * m - (2 * m - b) < b + 1
              from by omega)]
          have h2 : 2 * m - (2 * m - b) = b := by omega
          rw [h2]
        · rw [updArr_ne _ _ _ _ hkm]
          by_cases hkb : k = b
          · rw [hkb, updArr_same, if_pos (show b < b + 1 from by omega)]
          · rw [updArr_ne _ _ _ _ hkb]
            by_cases hlt : k < b
            · rw [if_pos hlt, if_pos (show k < b + 1 from by omega)]
            · rw [if_neg hlt, if_neg (show ¬(k < b + 1) from by omega)]
              by_cases hmir : m < k ∧ k < 2 * m ∧ 2 * m - k < b
              · rw [if_pos hmir,
                  if_pos (show m < k ∧ k < 2 * m ∧ 2 * m - k < b + 1 from by omega)]
              · rw [if_neg hmir,
                  if_neg (show ¬(m < k ∧ k < 2 * m ∧ 2 * m - k < b + 1) from by omega)]
      · by_cases hkb : k = b
        · rw [hkb, updArr_same, if_pos (show b < b + 1 from by omega)]
        · rw [updArr_ne _ _ _ _ hkb]
          by_cases hlt : k < b
          · rw [if_pos hlt, if_pos (show k < b + 1 from by omega)]
          · rw [if_neg hlt, if_neg (show ¬(k < b + 1) from by omega)]
    · rw [if_neg hc]
      refine Prod.ext (Prod.ext ?_ ?_) ?_ <;> funext k <;> simp only
      · by_cases hkb : k = b
        · rw [hkb, updArr_same, if_pos (show b < b + 1 from by omega)]
        · rw [updArr_ne _ _ _ _ hkb]
          by_cases hlt : k < b
          · rw [if_pos hlt, if_pos (show k < b + 1 from by omega)]
          · rw [if_neg hlt, if_neg (show ¬(k < b + 1) from by omega)]
            by_cases hmir : m < k ∧ k < 2 * m ∧ 2 * m - k < b
            · rw [if_pos hmir,
                if_pos (show m < k ∧ k < 2 * m ∧ 2 * m - k < b + 1 from by omega)]
            · rw [if_neg hmir,
                if_neg (show ¬(m < k ∧ k < 2 * m ∧ 2 * m - k < b + 1) from by omega)]
      · by_cases hkb : k = b
        · rw [hkb, updArr_same, if_pos (show b < b + 1 from by omega)]
        · rw [updArr_ne _ _ _ _ hkb]
          by_cases hlt : k < b
          · rw [if_pos hlt, if_pos (show k < b + 1 from by omega)]
          · rw [if_neg hlt, if_neg (show ¬(k < b + 1) from by omega)]
            by_cases hmir : m < k ∧ k < 2 * m ∧ 2 * m - k < b
            · rw [if_pos hmir,
                if_pos (show m < k ∧ k < 2 * m ∧ 2 * m - k < b + 1 from by omega)]
            · rw [if_neg hmir,
                if_neg (show ¬(m < k ∧ k < 2 * m ∧ 2 * m - k < b + 1) from by omega)]
      · by_cases hkb : k = b
        · rw [hkb, updArr_same, if_pos (show b < b + 1 from by omega)]
        · rw [updArr_ne _ _ _ _ hkb]
          by_cases hlt : k < b
          · rw [if_pos hlt, if_pos (show k < b + 1 from by omega)]
          · rw [if_neg hlt, if_neg (show ¬(k < b + 1) from by omega)]

/-- The per-bin loop of `process`, in closed form (even `fftSize`). -/
theorem processBins_closed (n : ℕ) (heven : 2 ∣ n) (noise prev0 re0 im0 : ℕ → ℝ) :
    processBins n noise prev0 (re0, im0) =
      ((processSpecRe n noise prev0 re0 im0, processSpecIm n noise prev0 re0 im0),
        processSpecPrev n noise prev0 re0 im0) := by
  obtain ⟨m, rfl⟩ := heven
  have hhalf : 2 * m / 2 = m := by omega
  rw [processBins, hhalf, processBins_fold_closed m noise prev0 re0 im0 (m + 1) (le_refl _)]
  refine Prod.ext (Prod.ext ?_ ?_) ?_ <;> funext k <;>
    simp only [processSpecRe, processSpecIm, processSpecPrev, hhalf]
  · by_cases hk : k ≤ m
    · rw [if_pos (show k < m + 1 from by omega), if_pos hk]
    · rw [if_neg (show ¬(k < m + 1) from by omega), if_neg hk]
      by_cases hk2 : k < 2 * m
      · rw [if_pos (show m < k ∧ k < 2 * m ∧ 2 * m - k < m + 1 from by omega), if_pos hk2]
      · rw [if_neg (show ¬(m < k ∧ k < 2 * m ∧ 2 * m - k < m + 1) from by omega),
          if_neg hk2]
  · by_cases hk : k ≤ m
    · rw [if_pos (show k < m + 1 from by omega), if_pos hk]
    · rw [if_neg (show ¬(k < m + 1) from by omega), if_neg hk]
      by_cases hk2 : k < 2 * m
      · rw [if_pos (show m < k ∧ k < 2 * m ∧ 2 * m - k < m + 1 from by omega), if_pos hk2]
      · rw [if_neg (show ¬(m < k ∧ k < 2 * m ∧ 2 * m - k < m + 1) from by omega),
          if_neg hk2]
  · by_cases hk : k ≤ m
    · rw [if_pos (show k < m + 1 from by omega), if_pos hk]
    · rw [if_neg (show ¬(k < m + 1) from by omega), if_neg hk]

/-- **C4.**  `process` is an identity passthrough until the denoiser is
learned; the over-subtracted magnitude `max(mag - 2.0*noise[i],
0.002*mag)` is never negative; and once learned the returned frame is the
inverse transform of the spectrum rebuilt from the temporally smoothed
magnitudes (`0.8*prevMag + 0.2*cleanMag`, with `prevMag` persisting into
the successor state) and the original noisy phases, conjugate-mirrored
onto the bins above `N/2` except DC and Nyquist. -/
theorem C4_process_subtraction_smoothing_mirror :
    (∀ (c : NoiseCancellerState) (buffer : List ℝ),
      c.learned = false → process c buffer = (buffer, c)) ∧
    (∀ (noise re0 im0 : ℕ → ℝ) (i : ℕ), 0 ≤ binClean noise re0 im0 i) ∧
    (∀ (c : NoiseCancellerState) (buffer : List ℝ),
      c.learned = true → 2 ∣ c.fftSize →
      process c buffer =
        ((List.range c.fftSize).map
          (ifft c.fftSize
            (processSpecRe c.fftSize (c.noiseProfile.getD fun _ => 0)
              (c.prevMag.getD fun _ => 0)
              (fft c.fftSize (windowed c.fftSize buffer, fun _ => 0)).1
              (fft c.fftSize (windowed c.fftSize buffer, fun _ => 0)).2,
             processSpecIm c.fftSize (c.noiseProfile.getD fun _ => 0)
              (c.prevMag.getD fun _ => 0)
              (fft c.fftSize (windowed c.fftSize buffer, fun _ => 0)).1
              (fft c.fftSize (windowed c.fftSize buffer, fun _ => 0)).2)).1,
         { c with
           prevMag := some (processSpecPrev c.fftSize (c.noiseProfile.getD fun _ => 0)
             (c.prevMag.getD fun _ => 0)
             (fft c.fftSize (windowed c.fftSize buffer, fun _ => 0)).1
             (fft c.fftSize (windowed c.fftSize buffer, fun _ => 0)).2) })) := by
  refine ⟨fun c buffer h => ?_, fun noise re0 im0 i => ?_, fun c buffer h heven => ?_⟩
  · rw [process, if_pos h]
  · exact le_trans
      (mul_nonneg (by norm_num) (Real.sqrt_nonneg _ : (0:ℝ) ≤ binMag re0 im0 i))
      (le_max_right _ _)
  · have hstep : process c buffer =
        ((List.range c.fftSize).map
          (ifft c.fftSize
            (processBins c.fftSize (c.noiseProfile.getD fun _ => 0)
              (c.prevMag.getD fun _ => 0)
              (fft c.fftSize (windowed c.fftSize buffer, fun _ => 0))).1).1,
         { c with
           prevMag := some (processBins c.fftSize (c.noiseProfile.getD fun _ => 0)
             (c.prevMag.getD fun _ => 0)
             (fft c.fftSize (windowed c.fftSize buffer, fun _ => 0))).2 }) := by
      rw [process, if_neg (by simp [h])]
    rw [hstep,
      show fft c.fftSize (windowed c.fftSize buffer, fun _ => 0) =
        ((fft c.fftSize (windowed c.fftSize buffer, fun _ => 0)).1,
         (fft c.fftSize (windowed c.fftSize buffer, fun _ => 0)).2) from rfl,
      processBins_closed c.fftSize heven]

theorem C4_witness :
    (({ mkNoiseCanceller 2 with learned := true } : NoiseCancellerState).learned = true ∧
      (2 ∣ ({ mkNoiseCanceller 2 with learned := true } : NoiseCancellerState).fftSize) ∧
      (mkNoiseCanceller 2).learned = false) ∧
    process (mkNoiseCanceller 2) [] = ([], mkNoiseCanceller 2) ∧
    process { mkNoiseCanceller 2 with learned := true } [] =
      ((List.range 2).map
        (ifft 2
          (processSpecRe 2 (fun _ => 0) (fun _ => 0)
            (fft 2 (windowed 2 [], fun _ => 0)).1 (fft 2 (windowed 2 [], fun _ => 0)).2,
           processSpecIm 2 (fun _ => 0) (fun _ => 0)
            (fft 2 (windowed 2 [], fun _ => 0)).1 (fft 2 (windowed 2 [], fun _ => 0)).2)).1,
       { mkNoiseCanceller 2 with
         learned := true
         prevMag := some (processSpecPrev 2 (fun _ => 0) (fun _ => 0)
           (fft 2 (windowed 2 [], fun _ => 0)).1
           (fft 2 (windowed 2 [], fun _ => 0)).2) }) :=
  ⟨⟨rfl, ⟨1, rfl⟩, rfl⟩,
   C4_process_subtraction_smoothing_mirror.1 (mkNoiseCanceller 2) [] rfl,
   C4_process_subtraction_smoothing_mirror.2.2 { mkNoiseCanceller 2 with learned := true }
     [] rfl ⟨1, rfl⟩⟩

theorem C5_witness :
    ((List.replicate 20 ([] : List ℝ)).length = 20 ∧
      learnFrameSeq (mkNoiseCanceller 2) (List.replicate 20 ([] : List ℝ)) =
        (List.replicate 19 false ++ [true],
         { fftSize := 2
           noiseProfile := some (averageProfile 1
             ((List.replicate 20 ([] : List ℝ)).map (magSpectrum 2)))
           learnFrames := []
           learnTarget := 20
           learned := true
           prevMag := none })) ∧
    (({ mkNoiseCanceller 2 with learned := true } : NoiseCancellerState).learned = true ∧
      learnFrame { mkNoiseCanceller 2 with learned := true } [] =
        (true, { mkNoiseCanceller 2 with learned := true })) :=
  ⟨⟨by simp, C5_twenty_frame_learning.1 2 (List.replicate 20 []) (by simp)⟩,
   ⟨rfl, C5_twenty_frame_learning.2 { mkNoiseCanceller 2 with learned := true } [] rfl⟩⟩

/-! ### The FFT round trip (C10)

The proof follows the classical correctness argument for the iterative
decimation-in-time algorithm: the constructor's bit-reversal table is the
`bits`-bit reversal `mrev`, the permutation pass gathers `x ∘ mrev`, each
butterfly stage merges adjacent blocks of partial DFTs, and after all
stages the array holds the DFT; the conjugate trick then inverts it by the
geometric-sum orthogonality of the roots of unity. -/

theorem bitRevLoop_eq_mrev (bits val : ℕ) : bitRevLoop bits val = mrev bits val := by
  have key : ∀ (k r v : ℕ),
      (List.range k).foldl (fun rv (_ : ℕ) => (2 * rv.1 + rv.2 % 2, rv.2 / 2)) (r, v) =
        (r * 2 ^ k + mrev k v, v / 2 ^ k) := by
    intro k
    induction k with
    | zero => intro r v; simp [mrev]
    | succ b ih =>
      intro r v
      rw [List.range_succ, List.foldl_append, ih, List.foldl_cons, List.foldl_nil]
      refine Prod.ext ?_ ?_
      · show 2 * (r * 2 ^ b + mrev b v) + v / 2 ^ b % 2 = r * 2 ^ (b + 1) + mrev (b + 1) v
        rw [mrev, pow_succ]
        ring
      · show v / 2 ^ b / 2 = v / 2 ^ (b + 1)
        rw [Nat.div_div_eq_div_mul, ← pow_succ]
  rw [bitRevLoop, key bits 0 val]
  simp

theorem mrev_lt (b v : ℕ) : mrev b v < 2 ^ b := by
  induction b with
  | zero => simp [mrev]
  | succ n ih =>
    rw [mrev, pow_succ]
    have h2 : v / 2 ^ n % 2 < 2 := Nat.mod_lt _ (by norm_num)
    omega

theorem mrev_two_mul_add (v : ℕ) (d : ℕ) (hd : d < 2) :
    ∀ b, mrev (b + 1) (2 * v + d) = d * 2 ^ b + mrev b v := by
  intro b
  induction b with
  | zero =>
    rw [mrev, mrev, mrev]
    simp
    omega
  | succ b ih =>
    rw [show b + 1 + 1 = (b + 1) + 1 from rfl, mrev, ih]
    have hdiv : (2 * v + d) / 2 ^ (b + 1) = v / 2 ^ b := by
      rw [pow_succ, mul_comm (2 ^ b) 2, ← Nat.div_div_eq_div_mul]
      congr 1
      omega
    rw [hdiv, mrev, pow_succ]
    ring

theorem mrev_bit (b : ℕ) : ∀ v j, j < b → mrev b v / 2 ^ j % 2 = v / 2 ^ (b - 1 - j) % 2 := by
  induction b with
  | zero => omega
  | succ b ih =>
    intro v j hj
    rw [mrev]
    have hd : v / 2 ^ b % 2 < 2 := Nat.mod_lt _ (by norm_num)
    cases j with
    | zero =>
      simp only [pow_zero, Nat.div_one, Nat.add_sub_cancel, Nat.sub_zero]
      omega
    | succ i =>
      have hstep : (2 * mrev b v + v / 2 ^ b % 2) / 2 ^ (i + 1) = mrev b v / 2 ^ i := by
        rw [pow_succ, mul_comm (2 ^ i) 2, ← Nat.div_div_eq_div_mul]
        congr 1
        omega
      rw [hstep, ih v i (by omega), show b + 1 - 1 - (i + 1) = b - 1 - i from by omega]

theorem eq_of_low_bits_eq (b : ℕ) :
    ∀ a c, a < 2 ^ b → c < 2 ^ b → (∀ j, j < b → a / 2 ^ j % 2 = c / 2 ^ j % 2) → a = c := by
  induction b with
  | zero =>
    intro a c ha hc _
    simp only [pow_zero] at ha hc
    omega
  | succ b ih =>
    intro a c ha hc h
    have h0 := h 0 (by omega)
    simp only [pow_zero, Nat.div_one] at h0
    have hrec : a / 2 = c / 2 := by
      refine ih (a / 2) (c / 2) ?_ ?_ fun j hj => ?_
      · rw [pow_succ] at ha; omega
      · rw [pow_succ] at hc; omega
      · have := h (j + 1) (by omega)
        rwa [pow_succ, mul_comm (2 ^ j) 2, ← Nat.div_div_eq_div_mul,
          ← Nat.div_div_eq_div_mul] at this
    omega

theorem mrev_mrev (b v : ℕ) (hv : v < 2 ^ b) : mrev b (mrev b v) = v := by
  refine eq_of_low_bits_eq b _ _ (mrev_lt _ _) hv fun j hj => ?_
  rw [mrev_bit b _ j hj, mrev_bit b v (b - 1 - j) (by omega),
    show b - 1 - (b - 1 - j) = j from by omega]

/-- The conditional-swap loop on a single array: applying the swaps
`(i, mrev i)` for `i` ascending (when `i < mrev i`) gathers the array
through the reversal permutation. -/
theorem swap_fold_gather (bits : ℕ) (x : ℕ → ℝ) :
    ∀ p, p ≤ 2 ^ bits →
      (∀ k, k < 2 ^ bits → min k (mrev bits k) < p →
        (List.range p).foldl
          (fun a i =>
            if i < mrev bits i then
              updArr (updArr a i (a (mrev bits i))) (mrev bits i) (a i)
            else a) x k = x (mrev bits k)) ∧
      (∀ k, ¬(k < 2 ^ bits ∧ min k (mrev bits k) < p) →
        (List.range p).foldl
          (fun a i =>
            if i < mrev bits i then
              updArr (updArr a i (a (mrev bits i))) (mrev bits i) (a i)
            else a) x k = x k) := by
  intro p
  induction p with
  | zero =>
    intro _
    exact ⟨fun k _ h => absurd h (by omega), fun k _ => rfl⟩
  | succ p ihp =>
    intro hp1
    obtain ⟨hdone, hrest⟩ := ihp (by omega)
    rw [List.range_succ, List.foldl_append, List.foldl_cons, List.foldl_nil]
    have hpn : p < 2 ^ bits := by omega
    have hrp : mrev bits p < 2 ^ bits := mrev_lt bits p
    by_cases hsw : p < mrev bits p
    · rw [if_pos hsw]
      constructor
      · intro k hk hmin
        by_cases hk1 : k = mrev bits p
        · rw [hk1, updArr_same, hrest p (by omega), mrev_mrev bits p hpn]
        · by_cases hk2 : k = p
          · rw [hk2, updArr_ne _ _ _ _ (by omega), updArr_same]
            refine hrest (mrev bits p) fun ⟨ha, hb⟩ => ?_
            rw [mrev_mrev bits p hpn] at hb
            omega
          · rw [updArr_ne _ _ _ _ hk1, updArr_ne _ _ _ _ hk2]
            refine hdone k hk ?_
            have hni : mrev bits k = p → k = mrev bits p := fun h =>
              by rw [← h, mrev_mrev bits k hk]
            by_cases hkk : mrev bits k = p
            · exact absurd (hni hkk) hk1
            · omega
      · intro k hnk
        have hk1 : ¬(k = mrev bits p) := fun h => hnk (by
          subst h
          rw [mrev_mrev bits p hpn]
          exact ⟨hrp, by omega⟩)
        have hk2 : ¬(k = p) := fun h => hnk (by subst h; exact ⟨hpn, by omega⟩)
        rw [updArr_ne _ _ _ _ hk1, updArr_ne _ _ _ _ hk2]
        refine hrest k fun ⟨ha, hb⟩ => hnk ⟨ha, by omega⟩
    · rw [if_neg hsw]
      constructor
      · intro k hk hmin
        by_cases hmin' : min k (mrev bits k) < p
        · exact hdone k hk hmin'
        · have hkp : k = p := by
            have hni : mrev bits k = p → k = mrev bits p := fun h =>
              by rw [← h, mrev_mrev bits k hk]
            by_cases hkk : mrev bits k = p
            · have := hni hkk
              omega
            · omega
          subst hkp
          rcases Nat.lt_or_ge (mrev bits k) k with hlt | hge
          · exact hdone k hk (by omega)
          · have heq : mrev bits k = k := by omega
            rw [heq, hrest k (by omega)]
      · intro k hnk
        exact hrest k fun ⟨ha, hb⟩ => hnk ⟨ha, by omega⟩

/-- The two components of `bitrevSwap` act independently as the
single-array conditional swap. -/
theorem bitrevPermute_components (bits : ℕ) (st : (ℕ → ℝ) × (ℕ → ℝ)) :
    ∀ p,
      (List.range p).foldl (bitrevSwap (2 ^ bits)) st =
        ((List.range p).foldl
          (fun a i =>
            if i < mrev bits i then
              updArr (updArr a i (a (mrev bits i))) (mrev bits i) (a i)
            else a) st.1,
         (List.range p).foldl
          (fun a i =>
            if i < mrev bits i then
              updArr (updArr a i (a (mrev bits i))) (mrev bits i) (a i)
            else a) st.2) := by
  intro p
  induction p with
  | zero => simp
  | succ p ihp =>
    rw [List.range_succ, List.foldl_append, List.foldl_append, List.foldl_append, ihp]
    simp only [List.foldl_cons, List.foldl_nil, bitrevSwap, Nat.log2_two_pow,
      bitRevLoop_eq_mrev]
    by_cases hsw : p < mrev bits p
    · rw [if_pos hsw, if_pos hsw, if_pos hsw]
    · rw [if_neg hsw, if_neg hsw, if_neg hsw]

/-- The permutation pass gathers both arrays through the bit reversal. -/
theorem bitrevPermute_apply (bits : ℕ) (st : (ℕ → ℝ) × (ℕ → ℝ)) (k : ℕ)
    (hk : k < 2 ^ bits) :
    cview (bitrevPermute (2 ^ bits) st) k = cview st (mrev bits k) := by
  rw [bitrevPermute, bitrevPermute_components bits st (2 ^ bits)]
  have hmin : min k (mrev bits k) < 2 ^ bits := by
    have := mrev_lt bits k
    omega
  have h1 := (swap_fold_gather bits st.1 (2 ^ bits) (le_refl _)).1 k hk hmin
  have h2 := (swap_fold_gather bits st.2 (2 ^ bits) (le_refl _)).1 k hk hmin
  exact Complex.ext h1 h2


/-- The twiddle-factor pair is the `i`-th power of the principal root. -/
theorem ctwiddle_eq (n i : ℕ) :
    (⟨twiddleRe n i, twiddleIm n i⟩ : ℂ) = omegaN n ^ i := by
  rw [omegaN, ← Complex.exp_nat_mul,
    show ((i : ℂ) * (-(2 * Real.pi / n) * Complex.I)) =
      ((-2 * Real.pi * i / n : ℝ) : ℂ) * Complex.I from by push_cast; ring]
  apply Complex.ext
  · rw [Complex.exp_ofReal_mul_I_re]
    rfl
  · rw [Complex.exp_ofReal_mul_I_im]
    rfl

theorem cview_re (st : (ℕ → ℝ) × (ℕ → ℝ)) (k : ℕ) : (cview st k).re = st.1 k := rfl

theorem cview_im (st : (ℕ → ℝ) × (ℕ → ℝ)) (k : ℕ) : (cview st k).im = st.2 k := rfl

/-- One butterfly, seen on the complex view. -/
theorem butterfly_cview (n size : ℕ) (st : (ℕ → ℝ) × (ℕ → ℝ)) (i j : ℕ)
    (hhalf : 0 < size / 2) (k : ℕ) :
    cview (butterfly n size st i j) k =
      if k = i + j then
        cview st (i + j) +
          omegaN n ^ (j * (n / size)) * cview st (i + j + size / 2)
      else if k = i + j + size / 2 then
        cview st (i + j) -
          omegaN n ^ (j * (n / size)) * cview st (i + j + size / 2)
      else cview st k := by
  have hne : i + j ≠ i + j + size / 2 := by omega
  have hre : (omegaN n ^ (j * (n / size))).re = twiddleRe n (j * (n / size)) := by
    rw [← ctwiddle_eq]
  have him : (omegaN n ^ (j * (n / size))).im = twiddleIm n (j * (n / size)) := by
    rw [← ctwiddle_eq]
  by_cases hk1 : k = i + j
  · subst hk1
    rw [if_pos rfl]
    apply Complex.ext
    · simp only [Complex.add_re, Complex.mul_re, hre, him, cview_re, cview_im]
      simp only [butterfly]
      rw [updArr_same, updArr_ne _ _ _ _ hne]
    · simp only [Complex.add_im, Complex.mul_im, hre, him, cview_re, cview_im]
      simp only [butterfly]
      rw [updArr_same, updArr_ne _ _ _ _ hne]
  · rw [if_neg hk1]
    by_cases hk2 : k = i + j + size / 2
    · subst hk2
      rw [if_pos rfl]
      apply Complex.ext
      · simp only [Complex.sub_re, Complex.mul_re, hre, him, cview_re, cview_im]
        simp only [butterfly]
        rw [updArr_ne _ _ _ _ (Ne.symm hne), updArr_same]
      · simp only [Complex.sub_im, Complex.mul_im, hre, him, cview_re, cview_im]
        simp only [butterfly]
        rw [updArr_ne _ _ _ _ (Ne.symm hne), updArr_same]
    · rw [if_neg hk2]
      apply Complex.ext
      · simp only [cview_re]
        simp only [butterfly]
        rw [updArr_ne _ _ _ _ hk1, updArr_ne _ _ _ _ hk2]
      · simp only [cview_im]
        simp only [butterfly]
        rw [updArr_ne _ _ _ _ hk1, updArr_ne _ _ _ _ hk2]

/-- The inner loop of one stage on one block, as a closed form. -/
theorem butterfly_fold (n size : ℕ) (st : (ℕ → ℝ) × (ℕ → ℝ)) (base : ℕ)
    (hhalf : 0 < size / 2) :
    ∀ m, m ≤ size / 2 → ∀ k,
      cview ((List.range m).foldl (fun s j => butterfly n size s base j) st) k =
        if base ≤ k ∧ k < base + m then
          cview st k + omegaN n ^ ((k - base) * (n / size)) * cview st (k + size / 2)
        else if base + size / 2 ≤ k ∧ k < base + size / 2 + m then
          cview st (k - size / 2) -
            omegaN n ^ ((k - base - size / 2) * (n / size)) * cview st k
        else cview st k := by
  intro m
  induction m with
  | zero =>
    intro _ k
    rw [if_neg (by omega), if_neg (by omega)]
    rfl
  | succ m ih =>
    intro hm k
    rw [List.range_succ, List.foldl_append]
    simp only [List.foldl_cons, List.foldl_nil]
    rw [butterfly_cview n size _ base m hhalf k]
    by_cases hk1 : k = base + m
    · subst hk1
      rw [if_pos rfl, ih (by omega) (base + m), ih (by omega) (base + m + size / 2),
        if_neg (show ¬(base ≤ base + m ∧ base + m < base + m) from by omega),
        if_neg (show ¬(base + size / 2 ≤ base + m ∧
          base + m < base + size / 2 + m) from by omega),
        if_neg (show ¬(base ≤ base + m + size / 2 ∧
          base + m + size / 2 < base + m) from by omega),
        if_neg (show ¬(base + size / 2 ≤ base + m + size / 2 ∧
          base + m + size / 2 < base + size / 2 + m) from by omega),
        if_pos (show base ≤ base + m ∧ base + m < base + (m + 1) from by omega),
        show base + m - base = m from by omega]
    · rw [if_neg hk1]
      by_cases hk2 : k = base + m + size / 2
      · subst hk2
        rw [if_pos rfl, ih (by omega) (base + m), ih (by omega) (base + m + size / 2),
          if_neg (show ¬(base ≤ base + m ∧ base + m < base + m) from by omega),
          if_neg (show ¬(base + size / 2 ≤ base + m ∧
            base + m < base + size / 2 + m) from by omega),
          if_neg (show ¬(base ≤ base + m + size / 2 ∧
            base + m + size / 2 < base + m) from by omega),
          if_neg (show ¬(base + size / 2 ≤ base + m + size / 2 ∧
            base + m + size / 2 < base + size / 2 + m) from by omega),
          if_neg (show ¬(base ≤ base + m + size / 2 ∧
            base + m + size / 2 < base + (m + 1)) from by omega),
          if_pos (show base + size / 2 ≤ base + m + size / 2 ∧
            base + m + size / 2 < base + size / 2 + (m + 1) from by omega),
          show base + m + size / 2 - size / 2 = base + m from by omega,
          show base + m + size / 2 - base - size / 2 = m from by omega]
      · rw [if_neg hk2, ih (by omega) k]
        by_cases hc1 : base ≤ k ∧ k < base + m
        · rw [if_pos hc1,
            if_pos (show base ≤ k ∧ k < base + (m + 1) from by omega)]
        · by_cases hc2 : base + size / 2 ≤ k ∧ k < base + size / 2 + m
          · rw [if_neg hc1, if_pos hc2,
              if_neg (show ¬(base ≤ k ∧ k < base + (m + 1)) from by omega),
              if_pos (show base + size / 2 ≤ k ∧
                k < base + size / 2 + (m + 1) from by omega)]
          · rw [if_neg hc1, if_neg hc2,
              if_neg (show ¬(base ≤ k ∧ k < base + (m + 1)) from by omega),
              if_neg (show ¬(base + size / 2 ≤ k ∧
                k < base + size / 2 + (m + 1)) from by omega)]

/-- One full stage of the transform, as a closed form over the blocks. -/
theorem fftStage_fold (n size : ℕ) (st : (ℕ → ℝ) × (ℕ → ℝ))
    (hhalf : 0 < size / 2) (hsz : size / 2 + size / 2 = size) :
    ∀ B k,
      cview ((List.range B).foldl
        (fun s bi =>
          (List.range (size / 2)).foldl
            (fun s j => butterfly n size s (bi * size) j) s) st) k =
        if k < B * size then
          if k % size < size / 2 then
            cview st k + omegaN n ^ ((k % size) * (n / size)) * cview st (k + size / 2)
          else
            cview st (k - size / 2) -
              omegaN n ^ ((k % size - size / 2) * (n / size)) * cview st k
        else cview st k := by
  intro B
  induction B with
  | zero =>
    intro k
    rw [if_neg (show ¬(k < 0 * size) from by omega)]
    rfl
  | succ B ih =>
    intro k
    rw [List.range_succ, List.foldl_append]
    simp only [List.foldl_cons, List.foldl_nil]
    rw [butterfly_fold n size _ (B * size) hhalf (size / 2) (le_refl _) k]
    by_cases hc1 : B * size ≤ k ∧ k < B * size + size / 2
    · have hmod : k % size = k - B * size := by
        conv_lhs => rw [show k = k - B * size + B * size from by omega]
        rw [Nat.add_mul_mod_self_right]
        exact Nat.mod_eq_of_lt (by omega)
      rw [if_pos hc1, ih k, ih (k + size / 2),
        if_neg (show ¬(k < B * size) from by omega),
        if_neg (show ¬(k + size / 2 < B * size) from by omega),
        if_pos (show k < (B + 1) * size from by rw [add_mul, one_mul]; omega),
        hmod, if_pos (show k - B * size < size / 2 from by omega)]
    · by_cases hc2 : B * size + size / 2 ≤ k ∧ k < B * size + size / 2 + size / 2
      · have hmod : k % size = k - B * size := by
          conv_lhs => rw [show k = k - B * size + B * size from by omega]
          rw [Nat.add_mul_mod_self_right]
          exact Nat.mod_eq_of_lt (by omega)
        rw [if_neg hc1, if_pos hc2, ih k, ih (k - size / 2),
          if_neg (show ¬(k < B * size) from by omega),
          if_neg (show ¬(k - size / 2 < B * size) from by omega),
          if_pos (show k < (B + 1) * size from by rw [add_mul, one_mul]; omega),
          hmod, if_neg (show ¬(k - B * size < size / 2) from by omega),
          show k - B * size - size / 2 = k - B * size - size / 2 from rfl]
      · rw [if_neg hc1, if_neg hc2, ih k]
        by_cases hk : k < B * size
        · rw [if_pos hk,
            if_pos (show k < (B + 1) * size from by rw [add_mul, one_mul]; omega)]
        · rw [if_neg hk,
            if_neg (show ¬(k < (B + 1) * size) from by rw [add_mul, one_mul]; omega)]

/-- Pointwise form of one stage: the butterfly formula for the bin `k`. -/
theorem fftStage_cview (n size : ℕ) (st : (ℕ → ℝ) × (ℕ → ℝ))
    (hhalf : 0 < size / 2) (hsz : size / 2 + size / 2 = size)
    (hdvd : n / size * size = n) (k : ℕ) (hk : k < n) :
    cview (fftStage n st size) k =
      if k % size < size / 2 then
        cview st k + omegaN n ^ ((k % size) * (n / size)) * cview st (k + size / 2)
      else
        cview st (k - size / 2) -
          omegaN n ^ ((k % size - size / 2) * (n / size)) * cview st k := by
  rw [fftStage, fftStage_fold n size st hhalf hsz (n / size) k,
    if_pos (show k < n / size * size from by rw [hdvd]; omega)]

/-- The principal root to the `n`-th power is `1`. -/
theorem omegaN_pow_self (n : ℕ) (hn : 0 < n) : omegaN n ^ n = 1 := by
  have hne : (n : ℂ) ≠ 0 := Nat.cast_ne_zero.mpr (by omega)
  rw [omegaN, ← Complex.exp_nat_mul,
    show (n : ℂ) * (-(2 * Real.pi / n) * Complex.I) =
      -(2 * Real.pi * Complex.I) from by field_simp; ring,
    Complex.exp_neg, Complex.exp_two_pi_mul_I, inv_one]

/-- The principal root of an even order, raised to half the order, is `-1`. -/
theorem omegaN_two_mul_pow (m : ℕ) (hm : 0 < m) : omegaN (2 * m) ^ m = -1 := by
  have hne : (m : ℂ) ≠ 0 := Nat.cast_ne_zero.mpr (by omega)
  rw [omegaN, ← Complex.exp_nat_mul,
    show (m : ℂ) * (-(2 * Real.pi / ((2 * m : ℕ) : ℂ)) * Complex.I) =
      -(Real.pi * Complex.I) from by push_cast; field_simp; ring,
    Complex.exp_neg, Complex.exp_pi_mul_I]
  norm_num

/-- Splitting a sum over an even range into even and odd indices. -/
theorem sum_range_double {M : Type*} [AddCommMonoid M] (f : ℕ → M) (m : ℕ) :
    ∑ u ∈ Finset.range (2 * m), f u =
      (∑ t ∈ Finset.range m, f (2 * t)) + ∑ t ∈ Finset.range m, f (2 * t + 1) := by
  induction m with
  | zero => simp
  | succ m ih =>
    rw [show 2 * (m + 1) = 2 * m + 1 + 1 from by ring,
      Finset.sum_range_succ, Finset.sum_range_succ, ih,
      Finset.sum_range_succ, Finset.sum_range_succ]
    abel

/-- Invariant of the staged transform: after `s` stages, bin `k` holds the
`2 ^ s`-point partial DFT of the stride-`2 ^ (bits - s)` subsequence selected
by the bit-reversed block index. -/
theorem fft_stages_inv (bits : ℕ) (st : (ℕ → ℝ) × (ℕ → ℝ)) :
    ∀ s, s ≤ bits → ∀ k, k < 2 ^ bits →
      cview ((List.range s).foldl
          (fun a t => fftStage (2 ^ bits) a (2 ^ (t + 1)))
          (bitrevPermute (2 ^ bits) st)) k =
        ∑ t ∈ Finset.range (2 ^ s),
          cview st (t * 2 ^ (bits - s) + mrev (bits - s) (k / 2 ^ s)) *
            omegaN (2 ^ bits) ^ (t * (k % 2 ^ s) * 2 ^ (bits - s)) := by
  intro s
  induction s with
  | zero =>
    intro _ k hk
    simp only [List.range_zero, List.foldl_nil, Finset.sum_range_one, Nat.div_one,
      Nat.sub_zero, Nat.zero_mul, Nat.zero_add, pow_zero, mul_one, zero_mul, zero_add]
    exact bitrevPermute_apply bits st k hk
  | succ s ihs =>
    intro hs1 k hk
    have hpow : (2 : ℕ) ^ (s + 1) / 2 = 2 ^ s := by
      rw [pow_succ, Nat.mul_div_cancel _ (by norm_num)]
    have hhalf : 0 < 2 ^ (s + 1) / 2 := by
      rw [hpow]
      exact Nat.two_pow_pos s
    have hsz : 2 ^ (s + 1) / 2 + 2 ^ (s + 1) / 2 = 2 ^ (s + 1) := by
      rw [hpow, pow_succ]
      omega
    have hdvd : 2 ^ bits / 2 ^ (s + 1) * 2 ^ (s + 1) = 2 ^ bits :=
      Nat.div_mul_cancel (pow_dvd_pow 2 hs1)
    have hndiv : (2 : ℕ) ^ bits / 2 ^ (s + 1) = 2 ^ (bits - (s + 1)) :=
      Nat.pow_div hs1 (by norm_num)
    have hklt : k % 2 ^ (s + 1) < 2 ^ (s + 1) := Nat.mod_lt _ (Nat.two_pow_pos _)
    have hy : (2 : ℕ) ^ (s + 1) = 2 ^ s * 2 := pow_succ 2 s
    have hds : k / 2 ^ s / 2 = k / 2 ^ (s + 1) := by
      rw [Nat.div_div_eq_div_mul, ← pow_succ]
    have hms : k / 2 ^ s % 2 = k % 2 ^ (s + 1) / 2 ^ s := by
      rw [hy]
      exact (Nat.mod_mul_right_div_self k (2 ^ s) 2).symm
    have hebs : (2 : ℕ) ^ (bits - s) = 2 ^ (bits - (s + 1)) * 2 := by
      rw [show bits - s = bits - (s + 1) + 1 from by omega, pow_succ]
    have heb : (2 : ℕ) ^ bits = 2 ^ s * 2 ^ (bits - (s + 1)) * 2 := by
      conv_lhs => rw [show bits = s + 1 + (bits - (s + 1)) from by omega]
      rw [pow_add, pow_succ]
      ring
    have heb1 : (2 : ℕ) ^ (bits - 1) = 2 ^ s * 2 ^ (bits - (s + 1)) := by
      rw [show bits - 1 = s + (bits - (s + 1)) from by omega, pow_add]
    have hone : omegaN (2 ^ bits) ^ 2 ^ bits = 1 :=
      omegaN_pow_self _ (Nat.two_pow_pos bits)
    have honet : ∀ t : ℕ, omegaN (2 ^ bits) ^ (2 ^ bits * t) = 1 := fun t => by
      rw [pow_mul, hone, one_pow]
    have hneg : omegaN (2 ^ bits) ^ 2 ^ (bits - 1) = -1 := by
      have h := omegaN_two_mul_pow (2 ^ (bits - 1)) (Nat.two_pow_pos _)
      rwa [show 2 * 2 ^ (bits - 1) = 2 ^ bits from by
        rw [← pow_succ']
        congr 1
        omega] at h
    have hrev0 : mrev (bits - s) (2 * (k / 2 ^ (s + 1))) =
        mrev (bits - (s + 1)) (k / 2 ^ (s + 1)) := by
      have h := mrev_two_mul_add (k / 2 ^ (s + 1)) 0 (by norm_num) (bits - (s + 1))
      simp only [Nat.add_zero, Nat.zero_mul, Nat.zero_add] at h
      rw [show bits - s = bits - (s + 1) + 1 from by omega, h]
    have hrev1 : mrev (bits - s) (2 * (k / 2 ^ (s + 1)) + 1) =
        2 ^ (bits - (s + 1)) + mrev (bits - (s + 1)) (k / 2 ^ (s + 1)) := by
      have h := mrev_two_mul_add (k / 2 ^ (s + 1)) 1 (by norm_num) (bits - (s + 1))
      rw [show bits - s = bits - (s + 1) + 1 from by omega, h, Nat.one_mul]
    rw [List.range_succ, List.foldl_append]
    simp only [List.foldl_cons, List.foldl_nil]
    rw [fftStage_cview (2 ^ bits) (2 ^ (s + 1)) _ hhalf hsz hdvd k hk, hpow, hndiv]
    by_cases hbr : k % 2 ^ (s + 1) < 2 ^ s
    · rw [if_pos hbr]
      have hbit : k % 2 ^ (s + 1) / 2 ^ s = 0 := Nat.div_eq_of_lt hbr
      have hq : k / 2 ^ s = 2 * (k / 2 ^ (s + 1)) := by
        have h1 := Nat.div_add_mod (k / 2 ^ s) 2
        rw [hds, hms, hbit] at h1
        omega
      have hm : k % 2 ^ s = k % 2 ^ (s + 1) := by
        have h2 : k % 2 ^ (s + 1) % 2 ^ s = k % 2 ^ s :=
          Nat.mod_mod_of_dvd k (pow_dvd_pow 2 (Nat.le_succ s))
        rw [← h2, Nat.mod_eq_of_lt hbr]
      have hk2 : k + 2 ^ s < 2 ^ bits := by
        have hdm := Nat.div_add_mod k (2 ^ (s + 1))
        have hak : k / 2 ^ (s + 1) < 2 ^ (bits - (s + 1)) := by
          apply Nat.div_lt_of_lt_mul
          rw [← pow_add, show s + 1 + (bits - (s + 1)) = bits from by omega]
          exact hk
        have hmul : 2 ^ (s + 1) * (k / 2 ^ (s + 1) + 1) ≤
            2 ^ (s + 1) * 2 ^ (bits - (s + 1)) :=
          Nat.mul_le_mul_left _ (by omega)
        rw [← pow_add, show s + 1 + (bits - (s + 1)) = bits from by omega,
          Nat.mul_add, Nat.mul_one] at hmul
        omega
      have hq2 : (k + 2 ^ s) / 2 ^ s = 2 * (k / 2 ^ (s + 1)) + 1 := by
        rw [Nat.add_div_right _ (Nat.two_pow_pos s), hq]
      have hm2 : (k + 2 ^ s) % 2 ^ s = k % 2 ^ s := Nat.add_mod_right _ _
      rw [ihs (by omega) k hk, ihs (by omega) (k + 2 ^ s) hk2, hq, hq2, hm2, hm,
        hrev0, hrev1]
      set a := k / 2 ^ (s + 1) with hadef
      set r := k % 2 ^ (s + 1) with hrdef
      rw [show (2 : ℕ) ^ (s + 1) = 2 * 2 ^ s from by ring, sum_range_double]
      rw [Finset.mul_sum]
      congr 1
      · refine Finset.sum_congr rfl fun t ht => ?_
        rw [show 2 * t * 2 ^ (bits - (s + 1)) = t * 2 ^ (bits - s) from by
            rw [hebs]; ring,
          show 2 * t * r * 2 ^ (bits - (s + 1)) = t * r * 2 ^ (bits - s) from by
            rw [hebs]; ring]
      · refine Finset.sum_congr rfl fun t ht => ?_
        rw [show (2 * t + 1) * 2 ^ (bits - (s + 1)) + mrev (bits - (s + 1)) a =
            t * 2 ^ (bits - s) + (2 ^ (bits - (s + 1)) + mrev (bits - (s + 1)) a) from by
            rw [hebs]; ring,
          show (2 * t + 1) * r * 2 ^ (bits - (s + 1)) =
            r * 2 ^ (bits - (s + 1)) + t * r * 2 ^ (bits - s) from by
            rw [hebs]; ring,
          pow_add]
        ring
    · rw [if_neg hbr]
      have hge : 2 ^ s ≤ k % 2 ^ (s + 1) := by omega
      have hbit : k % 2 ^ (s + 1) / 2 ^ s = 1 := by
        refine Nat.div_eq_of_lt_le (by omega) (by omega)
      have hq : k / 2 ^ s = 2 * (k / 2 ^ (s + 1)) + 1 := by
        have h1 := Nat.div_add_mod (k / 2 ^ s) 2
        rw [hds, hms, hbit] at h1
        omega
      have hkgs : 2 ^ s ≤ k := le_trans hge (Nat.mod_le _ _)
      have hm : k % 2 ^ s = k % 2 ^ (s + 1) - 2 ^ s := by
        have h2 : k % 2 ^ (s + 1) % 2 ^ s = k % 2 ^ s :=
          Nat.mod_mod_of_dvd k (pow_dvd_pow 2 (Nat.le_succ s))
        have h3 : k % 2 ^ (s + 1) % 2 ^ s = k % 2 ^ (s + 1) - 2 ^ s := by
          rw [Nat.mod_eq_sub_mod hge, Nat.mod_eq_of_lt (by omega)]
        omega
      have hsubdiv : (k - 2 ^ s) / 2 ^ s = 2 * (k / 2 ^ (s + 1)) := by
        have h4 := Nat.add_div_right (k - 2 ^ s) (Nat.two_pow_pos s)
        rw [show k - 2 ^ s + 2 ^ s = k from by omega] at h4
        omega
      have hsubmod : (k - 2 ^ s) % 2 ^ s = k % 2 ^ s := by
        have h5 := Nat.add_mod_right (k - 2 ^ s) (2 ^ s)
        rw [show k - 2 ^ s + 2 ^ s = k from by omega] at h5
        omega
      have hjlt : k - 2 ^ s < 2 ^ bits := by omega
      rw [ihs (by omega) (k - 2 ^ s) hjlt, ihs (by omega) k hk, hsubdiv, hsubmod,
        hq, hm, hrev0, hrev1]
      set a := k / 2 ^ (s + 1) with hadef
      obtain ⟨r2, hr2, hr2lt⟩ :
          ∃ r2, k % 2 ^ (s + 1) = r2 + 2 ^ s ∧ r2 < 2 ^ s :=
        ⟨k % 2 ^ (s + 1) - 2 ^ s, by omega, by omega⟩
      rw [hr2]
      simp only [Nat.add_sub_cancel]
      rw [show (2 : ℕ) ^ (s + 1) = 2 * 2 ^ s from by ring, sum_range_double]
      rw [sub_eq_add_neg, ← neg_mul, Finset.mul_sum]
      congr 1
      · refine Finset.sum_congr rfl fun t ht => ?_
        rw [show 2 * t * 2 ^ (bits - (s + 1)) = t * 2 ^ (bits - s) from by
            rw [hebs]; ring,
          show 2 * t * (r2 + 2 ^ s) * 2 ^ (bits - (s + 1)) =
            t * r2 * 2 ^ (bits - s) + 2 ^ bits * t from by
            rw [hebs, heb]; ring,
          pow_add, honet, mul_one]
      · refine Finset.sum_congr rfl fun t ht => ?_
        rw [show (2 * t + 1) * 2 ^ (bits - (s + 1)) + mrev (bits - (s + 1)) a =
            t * 2 ^ (bits - s) + (2 ^ (bits - (s + 1)) + mrev (bits - (s + 1)) a) from by
            rw [hebs]; ring,
          show (2 * t + 1) * (r2 + 2 ^ s) * 2 ^ (bits - (s + 1)) =
            t * r2 * 2 ^ (bits - s) + r2 * 2 ^ (bits - (s + 1)) +
              (2 ^ bits * t + 2 ^ (bits - 1)) from by
            rw [hebs, heb, heb1]; ring,
          pow_add, pow_add, pow_add, honet, hneg]
        ring

/-- The staged transform computes the DFT (`fft = dft` on valid indices). -/
theorem fft_dft (bits : ℕ) (st : (ℕ → ℝ) × (ℕ → ℝ)) (k : ℕ) (hk : k < 2 ^ bits) :
    cview (fft (2 ^ bits) st) k = dft (2 ^ bits) (cview st) k := by
  have h := fft_stages_inv bits st bits (le_refl _) k hk
  rw [fft, Nat.log2_two_pow, h, dft, Nat.sub_self, Nat.mod_eq_of_lt hk]
  refine Finset.sum_congr rfl fun t ht => ?_
  simp only [pow_zero, mul_one, show mrev 0 (k / 2 ^ bits) = 0 from rfl, Nat.add_zero]

theorem omegaN_ne_zero (n : ℕ) : omegaN n ≠ 0 := by
  rw [omegaN]
  exact Complex.exp_ne_zero _

theorem omegaN_eq_inv_exp (n : ℕ) :
    omegaN n = (Complex.exp (2 * Real.pi * Complex.I / n))⁻¹ := by
  rw [omegaN, ← Complex.exp_neg]
  congr 1
  ring

theorem omegaN_prim (n : ℕ) (hn : 0 < n) : IsPrimitiveRoot (omegaN n) n := by
  rw [omegaN_eq_inv_exp]
  exact (Complex.isPrimitiveRoot_exp n (by omega)).inv

theorem omegaN_conj (n : ℕ) : (starRingEnd ℂ) (omegaN n) = (omegaN n)⁻¹ := by
  rw [omegaN, ← Complex.exp_conj, ← Complex.exp_neg]
  congr 1
  simp [map_mul, map_div₀, map_ofNat, Complex.conj_I, Complex.conj_ofReal]

/-- A geometric sum of an `n`-th root of unity over a full period. -/
theorem zeta_sum (n : ℕ) (ζ : ℂ) (hζ : ζ ^ n = 1) :
    ∑ j ∈ Finset.range n, ζ ^ j = if ζ = 1 then (n : ℂ) else 0 := by
  by_cases h1 : ζ = 1
  · simp [h1]
  · rw [if_neg h1, geom_sum_eq h1, hζ, sub_self, zero_div]

/-- Orthogonality of the discrete characters. -/
theorem omegaN_orth (n : ℕ) (hn : 0 < n) (i k : ℕ) (hi : i < n) (hk : k < n) :
    ∑ j ∈ Finset.range n, omegaN n ^ (i * j) / omegaN n ^ (k * j) =
      if i = k then (n : ℂ) else 0 := by
  have h1 : omegaN n ^ n = 1 := (omegaN_prim n hn).pow_eq_one
  have hzn : (omegaN n ^ i / omegaN n ^ k) ^ n = 1 := by
    rw [div_pow, ← pow_mul, ← pow_mul, mul_comm i n, mul_comm k n, pow_mul, pow_mul,
      h1, one_pow, one_pow, div_one]
  have hterm : ∀ j, omegaN n ^ (i * j) / omegaN n ^ (k * j) =
      (omegaN n ^ i / omegaN n ^ k) ^ j := fun j => by
    rw [div_pow, ← pow_mul, ← pow_mul]
  rw [Finset.sum_congr rfl fun j _ => hterm j, zeta_sum n _ hzn]
  by_cases heq : i = k
  · rw [if_pos heq, if_pos]
    rw [heq, div_self (pow_ne_zero _ (omegaN_ne_zero n))]
  · rw [if_neg heq, if_neg]
    intro hcon
    exact heq ((omegaN_prim n hn).pow_inj hi hk
      ((div_eq_one_iff_eq (pow_ne_zero _ (omegaN_ne_zero n))).mp hcon))

/-- The conjugated-character orthogonality sum used by the inverse transform. -/
theorem conj_orth_sum (n : ℕ) (hn : 0 < n) (k i : ℕ) (hk : k < n) (hi : i < n) :
    ∑ j ∈ Finset.range n,
      (starRingEnd ℂ) (omegaN n ^ (i * j)) * omegaN n ^ (j * k) =
      if k = i then (n : ℂ) else 0 := by
  have h := omegaN_orth n hn k i hk hi
  rw [← h]
  refine Finset.sum_congr rfl fun j hj => ?_
  rw [map_pow, omegaN_conj, inv_pow, div_eq_mul_inv, mul_comm, mul_comm j k]

/-- The forward transform applied to the sign-flipped imaginary input
computes the conjugated-input DFT. -/
theorem fft_conj_input (bits : ℕ) (y : (ℕ → ℝ) × (ℕ → ℝ)) (k : ℕ) (hk : k < 2 ^ bits) :
    cview (fft (2 ^ bits) (y.1, fun i => if i < 2 ^ bits then -y.2 i else y.2 i)) k =
      ∑ j ∈ Finset.range (2 ^ bits),
        (starRingEnd ℂ) (cview y j) * omegaN (2 ^ bits) ^ (j * k) := by
  rw [fft_dft bits _ k hk, dft]
  refine Finset.sum_congr rfl fun j hj => ?_
  congr 1
  apply Complex.ext
  · show y.1 j = ((starRingEnd ℂ) (cview y j)).re
    rw [Complex.conj_re, cview_re]
  · show (if j < 2 ^ bits then -y.2 j else y.2 j) = ((starRingEnd ℂ) (cview y j)).im
    rw [if_pos (Finset.mem_range.mp hj), Complex.conj_im, cview_im]

/-- Components of the inverse transform, below the size. -/
theorem ifft_components (n : ℕ) (st : (ℕ → ℝ) × (ℕ → ℝ)) (k : ℕ) (hk : k < n) :
    (ifft n st).1 k =
      (fft n (st.1, fun i => if i < n then -st.2 i else st.2 i)).1 k / n ∧
    (ifft n st).2 k =
      -(fft n (st.1, fun i => if i < n then -st.2 i else st.2 i)).2 k / n := by
  constructor
  · show (if k < n then _ / (n : ℝ) else _) = _
    rw [if_pos hk]
  · show (if k < n then -_ / (n : ℝ) else _) = _
    rw [if_pos hk]

/-- Applying the inverse transform after the forward transform restores the
input on every index below the size. -/
theorem ifft_fft_id (bits : ℕ) (st : (ℕ → ℝ) × (ℕ → ℝ)) (k : ℕ)
    (hk : k < 2 ^ bits) :
    cview (ifft (2 ^ bits) (fft (2 ^ bits) st)) k = cview st k := by
  have hne : ((2 ^ bits : ℕ) : ℝ) ≠ 0 := Nat.cast_ne_zero.mpr (Nat.two_pow_pos bits).ne'
  obtain ⟨h1, h2⟩ := ifft_components (2 ^ bits) (fft (2 ^ bits) st) k hk
  have hw := fft_conj_input bits (fft (2 ^ bits) st) k hk
  have hw2 : ∀ j ∈ Finset.range (2 ^ bits),
      (starRingEnd ℂ) (cview (fft (2 ^ bits) st) j) * omegaN (2 ^ bits) ^ (j * k) =
      ∑ i ∈ Finset.range (2 ^ bits),
        (starRingEnd ℂ) (cview st i) *
          ((starRingEnd ℂ) (omegaN (2 ^ bits) ^ (i * j)) * omegaN (2 ^ bits) ^ (j * k)) :=
    fun j hj => by
      rw [fft_dft bits st j (Finset.mem_range.mp hj), dft, map_sum, Finset.sum_mul]
      refine Finset.sum_congr rfl fun i hi => ?_
      rw [map_mul]
      ring
  rw [Finset.sum_congr rfl hw2, Finset.sum_comm] at hw
  have hw3 : ∀ i ∈ Finset.range (2 ^ bits),
      (∑ j ∈ Finset.range (2 ^ bits),
        (starRingEnd ℂ) (cview st i) *
          ((starRingEnd ℂ) (omegaN (2 ^ bits) ^ (i * j)) *
            omegaN (2 ^ bits) ^ (j * k))) =
      if k = i then (starRingEnd ℂ) (cview st i) * ((2 ^ bits : ℕ) : ℂ) else 0 :=
    fun i hi => by
      rw [← Finset.mul_sum,
        conj_orth_sum (2 ^ bits) (Nat.two_pow_pos bits) k i hk (Finset.mem_range.mp hi),
        mul_ite, mul_zero]
  rw [Finset.sum_congr rfl hw3, Finset.sum_ite_eq (Finset.range (2 ^ bits)) k
    (fun i => (starRingEnd ℂ) (cview st i) * ((2 ^ bits : ℕ) : ℂ)),
    if_pos (Finset.mem_range.mpr hk)] at hw
  have hwre := congrArg Complex.re hw
  have hwim := congrArg Complex.im hw
  rw [cview_re] at hwre
  rw [cview_im] at hwim
  simp only [Complex.mul_re, Complex.mul_im, Complex.conj_re, Complex.conj_im,
    Complex.natCast_re, Complex.natCast_im, mul_zero, zero_mul, sub_zero, add_zero,
    zero_add, neg_mul, cview_re, cview_im] at hwre hwim
  apply Complex.ext
  · rw [cview_re, cview_re, h1, hwre, mul_div_cancel_right₀ _ hne]
  · rw [cview_im, cview_im, h2, hwim, neg_neg, mul_div_cancel_right₀ _ hne]

/-- Applying the forward transform after the inverse transform restores the
input on every index below the size. -/
theorem fft_ifft_id (bits : ℕ) (st : (ℕ → ℝ) × (ℕ → ℝ)) (k : ℕ)
    (hk : k < 2 ^ bits) :
    cview (fft (2 ^ bits) (ifft (2 ^ bits) st)) k = cview st k := by
  have hne : ((2 ^ bits : ℕ) : ℂ) ≠ 0 := Nat.cast_ne_zero.mpr (Nat.two_pow_pos bits).ne'
  have hzc : ∀ j, j < 2 ^ bits → cview (ifft (2 ^ bits) st) j =
      (starRingEnd ℂ) (cview (fft (2 ^ bits)
        (st.1, fun i => if i < 2 ^ bits then -st.2 i else st.2 i)) j) *
        (((2 ^ bits : ℕ) : ℂ))⁻¹ := by
    intro j hj
    obtain ⟨h1, h2⟩ := ifft_components (2 ^ bits) st j hj
    have hcast : (((2 ^ bits : ℕ) : ℂ))⁻¹ =
        Complex.ofReal ((((2 ^ bits : ℕ) : ℝ))⁻¹) := by
      rw [Complex.ofReal_inv, Complex.ofReal_natCast]
    apply Complex.ext
    · rw [cview_re, h1, hcast]
      simp only [Complex.mul_re, Complex.conj_re, Complex.conj_im, Complex.ofReal_re,
        Complex.ofReal_im, mul_zero, sub_zero, cview_re, neg_mul, neg_zero]
      rw [div_eq_mul_inv]
    · rw [cview_im, h2, hcast]
      simp only [Complex.mul_im, Complex.conj_re, Complex.conj_im, Complex.ofReal_re,
        Complex.ofReal_im, mul_zero, zero_add, cview_im, neg_mul]
      rw [div_eq_mul_inv, neg_mul]
  rw [fft_dft bits _ k hk, dft]
  have hterm : ∀ j ∈ Finset.range (2 ^ bits),
      cview (ifft (2 ^ bits) st) j * omegaN (2 ^ bits) ^ (j * k) =
      ∑ i ∈ Finset.range (2 ^ bits),
        cview st i *
          ((starRingEnd ℂ) (omegaN (2 ^ bits) ^ (i * j)) *
            omegaN (2 ^ bits) ^ (j * k)) *
          (((2 ^ bits : ℕ) : ℂ))⁻¹ := fun j hj => by
    rw [hzc j (Finset.mem_range.mp hj),
      fft_conj_input bits st j (Finset.mem_range.mp hj),
      map_sum, Finset.sum_mul, Finset.sum_mul]
    refine Finset.sum_congr rfl fun i hi => ?_
    rw [map_mul, Complex.conj_conj]
    ring
  rw [Finset.sum_congr rfl hterm, Finset.sum_comm]
  have hsum2 : ∀ i ∈ Finset.range (2 ^ bits),
      (∑ j ∈ Finset.range (2 ^ bits),
        cview st i *
          ((starRingEnd ℂ) (omegaN (2 ^ bits) ^ (i * j)) *
            omegaN (2 ^ bits) ^ (j * k)) *
          (((2 ^ bits : ℕ) : ℂ))⁻¹) =
      if k = i then cview st i else 0 := fun i hi => by
    have hpull : (∑ j ∈ Finset.range (2 ^ bits),
        cview st i *
          ((starRingEnd ℂ) (omegaN (2 ^ bits) ^ (i * j)) *
            omegaN (2 ^ bits) ^ (j * k)) *
          (((2 ^ bits : ℕ) : ℂ))⁻¹) =
        cview st i * (∑ j ∈ Finset.range (2 ^ bits),
          (starRingEnd ℂ) (omegaN (2 ^ bits) ^ (i * j)) *
            omegaN (2 ^ bits) ^ (j * k)) * (((2 ^ bits : ℕ) : ℂ))⁻¹ := by
      rw [← Finset.sum_mul, ← Finset.mul_sum]
    rw [hpull,
      conj_orth_sum (2 ^ bits) (Nat.two_pow_pos bits) k i hk (Finset.mem_range.mp hi)]
    by_cases h : k = i
    · rw [if_pos h, if_pos h, mul_assoc, mul_inv_cancel₀ hne, mul_one]
    · rw [if_neg h, if_neg h, mul_zero, zero_mul]
  rw [Finset.sum_congr rfl hsum2,
    Finset.sum_ite_eq (Finset.range (2 ^ bits)) k (fun i => cview st i),
    if_pos (Finset.mem_range.mpr hk)]

/-- C10: over exact real arithmetic, for arrays of length `N = 2 ^ bits`
(the power-of-two `fftSize`), the inverse transform implemented via the
conjugate trick with `1/N` scaling is a two-sided inverse of the in-place
radix-2 Cooley-Tukey forward transform: on every index `k < N`, applying
`ifft` after `fft` (and `fft` after `ifft`) returns the original real and
imaginary arrays. -/
theorem C10_fft_ifft_inverse (bits : ℕ) (st : (ℕ → ℝ) × (ℕ → ℝ)) (k : ℕ)
    (hk : k < 2 ^ bits) :
    (ifft (2 ^ bits) (fft (2 ^ bits) st)).1 k = st.1 k ∧
    (ifft (2 ^ bits) (fft (2 ^ bits) st)).2 k = st.2 k ∧
    (fft (2 ^ bits) (ifft (2 ^ bits) st)).1 k = st.1 k ∧
    (fft (2 ^ bits) (ifft (2 ^ bits) st)).2 k = st.2 k := by
  have h1 := ifft_fft_id bits st k hk
  have h2 := fft_ifft_id bits st k hk
  exact ⟨congrArg Complex.re h1, congrArg Complex.im h1,
    congrArg Complex.re h2, congrArg Complex.im h2⟩

/-- Witness for C10 at `bits = 1`, on the constant arrays `re = 1`, `im = 2`,
index `0`. -/
theorem C10_witness :
    (0 : ℕ) < 2 ^ 1 ∧
    (ifft (2 ^ 1) (fft (2 ^ 1) (fun _ => (1 : ℝ), fun _ => (2 : ℝ)))).1 0 = 1 ∧
    (ifft (2 ^ 1) (fft (2 ^ 1) (fun _ => (1 : ℝ), fun _ => (2 : ℝ)))).2 0 = 2 ∧
    (fft (2 ^ 1) (ifft (2 ^ 1) (fun _ => (1 : ℝ), fun _ => (2 : ℝ)))).1 0 = 1 ∧
    (fft (2 ^ 1) (ifft (2 ^ 1) (fun _ => (1 : ℝ), fun _ => (2 : ℝ)))).2 0 = 2 :=
  ⟨by norm_num,
    (C10_fft_ifft_inverse 1 (fun _ => 1, fun _ => 2) 0 (by norm_num)).1,
    (C10_fft_ifft_inverse 1 (fun _ => 1, fun _ => 2) 0 (by norm_num)).2.1,
    (C10_fft_ifft_inverse 1 (fun _ => 1, fun _ => 2) 0 (by norm_num)).2.2.1,
    (C10_fft_ifft_inverse 1 (fun _ => 1, fun _ => 2) 0 (by norm_num)).2.2.2⟩

end GuitarTuner
